import Mathlib

/-!
# Verification of the rowgenerators URL-resolution and fetch/cache core

A shallow embedding of `rowgenerators/util.py`, `rowgenerators/urls.py` and
`rowgenerators/fetch.py`.  Python strings are modelled as `List Char`;
Python `None` vs. a string value is modelled with `Option (List Char)`;
functions that can raise are modelled in `Except PyErr`.
-/

set_option maxRecDepth 10000

/-- Convert a Lean string literal to the `List Char` representation used
throughout the embedding. -/
def S (s : String) : List Char := s.data

/-- Python exception kinds that the embedded code can raise. -/
inductive PyErr where
  | valueError
  | assertionError
  | ioError
  | sourceError
  | httpError
  | otherError
  | interrupt
  deriving Repr, DecidableEq

deriving instance DecidableEq for Except

/-! ## Basic character classes (ASCII, as used by `urllib`) -/

def isAsciiUpper (c : Char) : Bool := 'A' ≤ c ∧ c ≤ 'Z'
def isAsciiLower (c : Char) : Bool := 'a' ≤ c ∧ c ≤ 'z'
def isAsciiAlpha (c : Char) : Bool := isAsciiUpper c || isAsciiLower c
def isAsciiDigit (c : Char) : Bool := '0' ≤ c ∧ c ≤ '9'

/-- Python `str.lower` restricted to ASCII letters (the only letters the
embedded code ever lowers). -/
def asciiLower (c : Char) : Char :=
  if isAsciiUpper c then Char.ofNat (c.toNat + 32) else c

def lowerStr (s : List Char) : List Char := s.map asciiLower

/-! ## List-of-char utilities mirroring Python string operations -/

/-- Python `s.split(sep)` for a single-character separator: always returns a
non-empty list of (possibly empty) pieces. -/
def splitOnChar (sep : Char) : List Char → List (List Char)
  | [] => [[]]
  | c :: t =>
    let r := splitOnChar sep t
    if c = sep then [] :: r
    else
      match r with
      | [] => [[c]]   -- unreachable: splitOnChar never returns []
      | h :: t' => (c :: h) :: t'


/-- Split a list at the first occurrence of `sep`: returns the part before it
and, when present, the part after it. -/
def splitAtFirst (sep : Char) : List Char → List Char × Option (List Char)
  | [] => ([], none)
  | c :: t =>
    if c = sep then ([], some t)
    else
      let (a, b) := splitAtFirst sep t
      (c :: a, b)

/-- Index of the first occurrence of a character, if any (Python `find`). -/
def findChar (sep : Char) : List Char → Option Nat
  | [] => none
  | c :: t => if c = sep then some 0 else (findChar sep t).map (· + 1)

/-- Index of the last occurrence of a character, if any (Python `rfind`). -/
def rfindChar (sep : Char) : List Char → Option Nat
  | [] => none
  | c :: t =>
    match rfindChar sep t with
    | some i => some (i + 1)
    | none => if c = sep then some 0 else none

/-- Python `s.lstrip(ch)` for a single strip character. -/
def lstripChar (ch : Char) (s : List Char) : List Char := s.dropWhile (· = ch)

/-- Python `s.rstrip(ch)` for a single strip character. -/
def rstripChar (ch : Char) (s : List Char) : List Char :=
  (lstripChar ch s.reverse).reverse

/-- Python `s.strip(ch)` for a single strip character. -/
def stripChar (ch : Char) (s : List Char) : List Char :=
  rstripChar ch (lstripChar ch s)

/-- Python `s.startswith(p)`. -/
def startsWithL (p s : List Char) : Bool := s.take p.length = p

/-- Python `s.endswith(p)`. -/
def endsWithL (p s : List Char) : Bool := s.drop (s.length - p.length) = p ∧ p.length ≤ s.length

/-- Python `s.replace(pat, rep)` (all non-overlapping occurrences, left to
right); `pat` is assumed non-empty at call sites. -/
def replaceAllGo (pat rep : List Char) : Nat → List Char → List Char
  | _, [] => []
  | 0, s => s   -- fuel exhausted: unreachable when fuel ≥ s.length
  | fuel + 1, c :: t =>
    if startsWithL pat (c :: t) ∧ pat ≠ [] then
      rep ++ replaceAllGo pat rep fuel ((c :: t).drop pat.length)
    else
      c :: replaceAllGo pat rep fuel t

def replaceAll (pat rep s : List Char) : List Char :=
  replaceAllGo pat rep s.length s

/-- Python `'/'.join`-style concatenation with a separator character. -/
def joinWithChar (sep : Char) : List (List Char) → List Char
  | [] => []
  | [x] => x
  | x :: y :: t => x ++ sep :: joinWithChar sep (y :: t)

/-! ## UTF-8 and percent-encoding (`urllib.parse.quote_plus` / `unquote_plus`) -/

/-- UTF-8 encoding of a Unicode code point (as used by Python `str.encode('utf8')`). -/
def utf8EncodeNat (n : Nat) : List Nat :=
  if n < 0x80 then [n]
  else if n < 0x800 then [0xC0 + n / 64, 0x80 + n % 64]
  else if n < 0x10000 then [0xE0 + n / 4096, 0x80 + (n / 64) % 64, 0x80 + n % 64]
  else [0xF0 + n / 262144, 0x80 + (n / 4096) % 64, 0x80 + (n / 64) % 64, 0x80 + n % 64]

def utf8Encode (c : Char) : List Nat := utf8EncodeNat c.toNat

/-- The Unicode replacement character U+FFFD used by `errors='replace'`. -/
def fffd : Char := Char.ofNat 0xFFFD

def isContByte (b : Nat) : Bool := 0x80 ≤ b ∧ b < 0xC0

/-- Incremental UTF-8 decoding with replacement of invalid bytes, modelling
Python `bytes.decode('utf-8', errors='replace')`. -/
def utf8Dec : List Nat → List Char
  | [] => []
  | [b] => if b < 0x80 then [Char.ofNat b] else [fffd]
  | [b, b2] =>
    if b < 0x80 then Char.ofNat b :: utf8Dec [b2]
    else if b < 0xC2 then fffd :: utf8Dec [b2]
    else if b < 0xE0 then
      if isContByte b2 then [Char.ofNat ((b - 0xC0) * 64 + (b2 - 0x80))]
      else fffd :: utf8Dec [b2]
    else if b < 0xF0 then
      if isContByte b2 ∧ ¬(b = 0xE0 ∧ b2 < 0xA0) ∧ ¬(b = 0xED ∧ 0xA0 ≤ b2) then [fffd]
      else [fffd, fffd]
    else if b < 0xF5 then
      if isContByte b2 ∧ ¬(b = 0xF0 ∧ b2 < 0x90) ∧ ¬(b = 0xF4 ∧ 0x90 ≤ b2) then [fffd]
      else fffd :: utf8Dec [b2]
    else fffd :: utf8Dec [b2]
  | [b, b2, b3] =>
    if b < 0x80 then Char.ofNat b :: utf8Dec [b2, b3]
    else if b < 0xC2 then fffd :: utf8Dec [b2, b3]
    else if b < 0xE0 then
      if isContByte b2 then Char.ofNat ((b - 0xC0) * 64 + (b2 - 0x80)) :: utf8Dec [b3]
      else fffd :: utf8Dec [b2, b3]
    else if b < 0xF0 then
      if isContByte b2 ∧ isContByte b3 ∧
         ¬(b = 0xE0 ∧ b2 < 0xA0) ∧ ¬(b = 0xED ∧ 0xA0 ≤ b2) then
        [Char.ofNat ((b - 0xE0) * 4096 + (b2 - 0x80) * 64 + (b3 - 0x80))]
      else fffd :: utf8Dec [b2, b3]
    else if b < 0xF5 then
      if isContByte b2 ∧ isContByte b3 ∧ ¬(b = 0xF0 ∧ b2 < 0x90) ∧ ¬(b = 0xF4 ∧ 0x90 ≤ b2)
      then [fffd]
      else fffd :: utf8Dec [b2, b3]
    else fffd :: utf8Dec [b2, b3]
  | b :: b2 :: b3 :: b4 :: bs =>
    if b < 0x80 then Char.ofNat b :: utf8Dec (b2 :: b3 :: b4 :: bs)
    else if b < 0xC2 then fffd :: utf8Dec (b2 :: b3 :: b4 :: bs)
    else if b < 0xE0 then
      if isContByte b2 then Char.ofNat ((b - 0xC0) * 64 + (b2 - 0x80)) :: utf8Dec (b3 :: b4 :: bs)
      else fffd :: utf8Dec (b2 :: b3 :: b4 :: bs)
    else if b < 0xF0 then
      if isContByte b2 ∧ isContByte b3 ∧
         ¬(b = 0xE0 ∧ b2 < 0xA0) ∧ ¬(b = 0xED ∧ 0xA0 ≤ b2) then
        Char.ofNat ((b - 0xE0) * 4096 + (b2 - 0x80) * 64 + (b3 - 0x80)) :: utf8Dec (b4 :: bs)
      else fffd :: utf8Dec (b2 :: b3 :: b4 :: bs)
    else if b < 0xF5 then
      if isContByte b2 ∧ isContByte b3 ∧ isContByte b4 ∧
         ¬(b = 0xF0 ∧ b2 < 0x90) ∧ ¬(b = 0xF4 ∧ 0x90 ≤ b2) then
        Char.ofNat ((b - 0xF0) * 262144 + (b2 - 0x80) * 4096 + (b3 - 0x80) * 64 + (b4 - 0x80))
          :: utf8Dec bs
      else fffd :: utf8Dec (b2 :: b3 :: b4 :: bs)
    else fffd :: utf8Dec (b2 :: b3 :: b4 :: bs)

def hexVal (c : Char) : Option Nat :=
  if isAsciiDigit c then some (c.toNat - '0'.toNat)
  else if 'a' ≤ c ∧ c ≤ 'f' then some (c.toNat - 'a'.toNat + 10)
  else if 'A' ≤ c ∧ c ≤ 'F' then some (c.toNat - 'A'.toNat + 10)
  else none

/-- Worker for `urllib.parse.unquote(s, encoding='utf-8', errors='replace')`.
`acc` accumulates (in reverse) the bytes of the current maximal run of `%XX`
escapes; a run is flushed through the UTF-8 decoder when it ends, exactly as
CPython's `unquote` decodes each maximal percent-escape run as one byte
string. -/
def unquoteAux : List Char → List Nat → List Char
  | '%' :: h1 :: h2 :: t, acc =>
    match hexVal h1, hexVal h2 with
    | some a, some b => unquoteAux t ((16 * a + b) :: acc)
    | _, _ => utf8Dec acc.reverse ++ '%' :: unquoteAux (h1 :: h2 :: t) []
  | c :: t, acc => utf8Dec acc.reverse ++ c :: unquoteAux t []
  | [], acc => utf8Dec acc.reverse

def pyUnquote (s : List Char) : List Char := unquoteAux s []

/-- `urllib.parse.unquote_plus`: replace `+` with space, then unquote. -/
def unquotePlus (s : List Char) : List Char :=
  pyUnquote (s.map (fun c => if c = '+' then ' ' else c))

/-- The characters `urllib.parse.quote` never escapes (`always_safe`). -/
def isAlwaysSafe (c : Char) : Bool :=
  isAsciiAlpha c || isAsciiDigit c || c = '_' || c = '.' || c = '-' || c = '~'

def hexDigitUpper (n : Nat) : Char :=
  if n < 10 then Char.ofNat ('0'.toNat + n) else Char.ofNat ('A'.toNat + (n - 10))

def pctEncodeByte (b : Nat) : List Char := ['%', hexDigitUpper (b / 16), hexDigitUpper (b % 16)]

/-- `urllib.parse.quote(s, safe)`: safe characters pass through, everything
else is UTF-8 encoded and percent-escaped. -/
def pyQuote (safe : List Char) (s : List Char) : List Char :=
  s.flatMap (fun c =>
    if isAlwaysSafe c || safe.contains c then [c]
    else (utf8Encode c).flatMap pctEncodeByte)

/-- `urllib.parse.quote_plus`: like `quote` with no extra safe characters,
but spaces become `+`. -/
def quotePlus (s : List Char) : List Char :=
  s.flatMap (fun c =>
    if isAlwaysSafe c then [c]
    else if c = ' ' then ['+']
    else (utf8Encode c).flatMap pctEncodeByte)

/-! ## `urllib.parse.urlparse` (as used via `six.moves`)

We model the splitting algorithm of CPython's `urlsplit`/`urlparse`:
scheme split at the first `:` when everything before it is made of scheme
characters, netloc after a leading `//` up to the next `/?#`, fragment at the
first `#`, query at the first `?`, and `;`-params split off the last path
segment.  (Version-specific WHATWG whitespace stripping and bracket-host
validation, which this repository never relies on, are not modelled.) -/

def isSchemeChar (c : Char) : Bool :=
  isAsciiAlpha c || isAsciiDigit c || c = '+' || c = '-' || c = '.'

structure SplitRes where
  scheme : List Char
  netloc : List Char
  path : List Char
  params : List Char
  query : List Char
  fragment : List Char
  deriving Repr, DecidableEq

/-- The scheme-splitting step of `urlsplit`. -/
def splitScheme (url : List Char) : List Char × List Char :=
  match findChar ':' url with
  | some i =>
    if 0 < i ∧ (url.take i).all isSchemeChar then
      (lowerStr (url.take i), url.drop (i + 1))
    else ([], url)
  | none => ([], url)

/-- `_splitnetloc(url, 2)`: netloc runs to the next `/`, `?` or `#`. -/
def splitNetloc (rest : List Char) : List Char × List Char :=
  let body := rest.drop 2
  (body.takeWhile (fun c => ¬(c = '/' ∨ c = '?' ∨ c = '#')),
   body.dropWhile (fun c => ¬(c = '/' ∨ c = '?' ∨ c = '#')))

/-- `_splitparams`: split `;params` off the last path segment. -/
def splitParams (p : List Char) : List Char × List Char :=
  if p.contains ';' then
    let i :=
      if p.contains '/' then
        match rfindChar '/' p with
        | some j => (findChar ';' (p.drop j)).map (· + j)
        | none => findChar ';' p
      else findChar ';' p
    match i with
    | some i => (p.take i, p.drop (i + 1))
    | none => (p, [])
  else (p, [])

/-- CPython `urlparse` (= `urlsplit` + params splitting). -/
def urlparseL (url : List Char) : SplitRes :=
  let (scheme, rest) := splitScheme url
  let (netloc, rest) :=
    if startsWithL (S "//") rest then splitNetloc rest else ([], rest)
  let (rest, frag) := splitAtFirst '#' rest
  let (path0, q) := splitAtFirst '?' rest
  let (path, params) := splitParams path0
  { scheme := scheme, netloc := netloc, path := path, params := params,
    query := q.getD [], fragment := frag.getD [] }

/-! ### netloc sub-component accessors (`username`, `password`, `hostname`, `port`) -/

/-- Part of `netloc` after the last `@` (`netloc.rpartition('@')[2]`). -/
def afterLastChar (ch : Char) (s : List Char) : List Char :=
  match rfindChar ch s with
  | some i => s.drop (i + 1)
  | none => s

/-- Part of `netloc` before the last `@` (`netloc.rpartition('@')[0]`). -/
def beforeLastChar (ch : Char) (s : List Char) : List Char :=
  match rfindChar ch s with
  | some i => s.take i
  | none => []

/-- `_hostinfo`: hostname and port string of a netloc. -/
def hostinfoOf (netloc : List Char) : List Char × List Char :=
  let hostinfo := afterLastChar '@' netloc
  match splitAtFirst '[' hostinfo with
  | (_, some br) =>
    let (host, restAfterBr) := splitAtFirst ']' br
    let portStr :=
      match restAfterBr with
      | some r => ((splitAtFirst ':' r).2).getD []
      | none => []
    (host, portStr)
  | (_, none) =>
    let (host, rest) := splitAtFirst ':' hostinfo
    (host, rest.getD [])

def usernameOf (netloc : List Char) : Option (List Char) :=
  if netloc.contains '@' then some ((splitAtFirst ':' (beforeLastChar '@' netloc)).1)
  else none

def passwordOf (netloc : List Char) : Option (List Char) :=
  if netloc.contains '@' then (splitAtFirst ':' (beforeLastChar '@' netloc)).2
  else none

def hostnameOf (netloc : List Char) : Option (List Char) :=
  let h := (hostinfoOf netloc).1
  if h = [] then none else some (lowerStr h)

def natFromDigits (s : List Char) : Nat :=
  s.foldl (fun a c => a * 10 + (c.toNat - '0'.toNat)) 0

/-- `ParseResult.port`: `None` for an empty port string, `ValueError` for a
non-digit or out-of-range port. -/
def portOf (netloc : List Char) : Except PyErr (Option Nat) :=
  let p := (hostinfoOf netloc).2
  if p = [] then .ok none
  else if p.all isAsciiDigit then
    let v := natFromDigits p
    if v ≤ 65535 then .ok (some v) else .error .valueError
  else .error .valueError

def natToDigitsGo : Nat → Nat → List Char → List Char
  | _, 0, acc => acc
  | 0, _, acc => acc   -- fuel exhausted: unreachable when fuel ≥ n
  | fuel + 1, n + 1, acc =>
    natToDigitsGo fuel ((n + 1) / 10) (Char.ofNat ('0'.toNat + (n + 1) % 10) :: acc)

/-- Python `str(n)` for a natural number. -/
def natToDigits (n : Nat) : List Char :=
  if n = 0 then ['0'] else natToDigitsGo n n []

/-! ## `util.path2url` (posix) and the Windows-drive-letter branch -/

/-- The dot-segment resolution loop of `urljoin`. -/
def resolveDotsLoop : List (List Char) → List (List Char) → List (List Char)
  | [], acc => acc
  | s :: t, acc =>
    if s = S ".." then resolveDotsLoop t acc.dropLast
    else if s = S "." then resolveDotsLoop t acc
    else resolveDotsLoop t (acc ++ [s])

/-- `path2url(path) = urljoin('file:', pathname2url(path))` on posix, where
`pathname2url = quote(path, safe='/')`.  For a base of `file:` the join
reduces to dot-segment resolution of the quoted path and reassembly by
`urlunsplit`, which inserts `///` because `file` uses a netloc. -/
def path2url (url : List Char) : List Char :=
  let X := pyQuote (S "/") url
  let segs := splitOnChar '/' X
  let resolved :=
    let r := resolveDotsLoop segs []
    match segs.getLast? with
    | some last => if last = S ".." ∨ last = S "." then r ++ [[]] else r
    | none => r
  let P := let j := joinWithChar '/' resolved; if j = [] then S "/" else j
  -- urlunsplit(('file', '', P, '', '')): 'file' uses a netloc, so when P does
  -- not already start with '//' a '//' (and a leading '/' on the path) is added.
  let P2 := if startsWithL (S "//") P then P else S "//" ++ (if startsWithL (S "/") P then P else '/' :: P)
  S "file:" ++ P2

/-! ## `util.parse_url_to_dict` / `util.unparse_url_dict` / `util.reparse_url` -/

structure UrlDict where
  scheme : List Char
  scheme_extension : Option (List Char)
  netloc : List Char
  hostname : Option (List Char)
  path : List Char
  params : List Char
  query : List Char
  fragment : Option (List Char)
  username : Option (List Char)
  password : Option (List Char)
  port : Option Nat
  deriving Repr, DecidableEq

/-- Does a raw string match `^[a-zA-Z]:` (the Windows-drive-letter test)? -/
def driveMatch : List Char → Bool
  | c1 :: c2 :: _ => isAsciiAlpha c1 ∧ c2 = ':'
  | _ => false

/-- `util.parse_url_to_dict`.  Raises `ValueError` (modelled as `.error`) when
the scheme contains more than one `+` or the netloc carries an invalid port. -/
def parse_url_to_dict (url : List Char) : Except PyErr UrlDict := do
  let r :=
    if driveMatch url then
      let p := urlparseL (unquotePlus (path2url url))
      { p with path := lstripChar '/' p.path }
    else urlparseL url
  let port ← portOf r.netloc
  let (scheme_extension, scheme) ←
    if r.scheme.contains '+' then
      match splitOnChar '+' r.scheme with
      | [a, b] => Except.ok (some a, b)
      | _ => Except.error PyErr.valueError
    else Except.ok (none, r.scheme)
  let scheme := if scheme = [] then S "file" else scheme
  Except.ok
    { scheme := scheme, scheme_extension := scheme_extension, netloc := r.netloc,
      hostname := hostnameOf r.netloc, path := r.path, params := r.params,
      query := r.query,
      fragment := if r.fragment = [] then none else some (unquotePlus r.fragment),
      username := usernameOf r.netloc, password := passwordOf r.netloc, port := port }

/-- Keyword overrides accepted by `unparse_url_dict` at its call sites in this
repository.  The outer `Option` records whether the keyword was passed; the
inner `Option` is the value, `none` standing for a falsy `None`/`False`. -/
structure UnparseKw where
  scheme : Option (Option (List Char)) := none
  scheme_extension : Option (Option (List Char)) := none
  fragment : Option (Option (List Char)) := none
  query : Option (Option (List Char)) := none
  path : Option (Option (List Char)) := none
  deriving Repr, DecidableEq

def truthy : Option (List Char) → Bool
  | none => false
  | some s => s ≠ []

/-- `util.unparse_url_dict` with the keyword overrides applied first
(`d.update(kwargs)`). -/
def unparse_url_dict (d : UrlDict) (kw : UnparseKw) : List Char :=
  let scheme : Option (List Char) := match kw.scheme with | some v => v | none => some d.scheme
  let ext : Option (List Char) := match kw.scheme_extension with | some v => v | none => d.scheme_extension
  let frag : Option (List Char) := match kw.fragment with | some v => v | none => d.fragment
  let query : Option (List Char) :=
    match kw.query with | some v => v | none => if d.query = [] then none else some d.query
  let path : List Char := match kw.path with | some v => v.getD [] | none => d.path
  let host_port := d.netloc
  let host_port := host_port ++
    (match d.port with | some p => if p ≠ 0 then ':' :: natToDigits p else [] | none => [])
  let user_pass :=
    (if truthy d.username then d.username.getD [] else []) ++
    (if truthy d.password then ':' :: d.password.getD [] else [])
  let host_port := if user_pass ≠ [] then user_pass ++ '@' :: host_port else host_port
  let url :=
    if truthy scheme ∧ host_port ≠ [] then
      scheme.getD [] ++ S "://" ++ host_port ++ '/' :: lstripChar '/' path
    else if scheme = some (S "mailto") ∨ scheme = some (S "file") then
      scheme.getD [] ++ ':' :: path
    else if truthy scheme then
      scheme.getD [] ++ S "://" ++ lstripChar '/' path
    else if path ≠ [] then
      S "file:" ++ lstripChar '/' path
    else []
  let url := match ext with | some e => if e ≠ [] then e ++ '+' :: url else url | none => url
  let url := url ++ (match query with | some q => if q ≠ [] then '?' :: q else [] | none => [])
  let url := url ++ (match frag with | some f => if f ≠ [] then '#' :: quotePlus f else [] | none => [])
  url

/-- `util.reparse_url` (the dead `assume_localhost` keyword is dropped). -/
def reparse_url (url : List Char) (kw : UnparseKw) : Except PyErr (List Char) := do
  let d ← parse_url_to_dict url
  Except.ok (unparse_url_dict d kw)

/-! ## `os.path` (posix) helpers used by `urls.py` -/

/-- posixpath `splitext`. -/
def splitextL (p : List Char) : List Char × List Char :=
  match rfindChar '.' p with
  | some dotI =>
    let fnStart := match rfindChar '/' p with | some j => j + 1 | none => 0
    -- `dotIndex > sepIndex` (with sepIndex = -1 when there is no separator)
    -- is equivalent to `fnStart ≤ dotI`.
    if fnStart ≤ dotI then
      if ((p.drop fnStart).take (dotI - fnStart)).any (fun c => c ≠ '.') then
        (p.take dotI, p.drop dotI)
      else (p, [])
    else (p, [])
  | none => (p, [])

/-- posixpath `basename`. -/
def basenameL (p : List Char) : List Char :=
  match rfindChar '/' p with
  | some i => p.drop (i + 1)
  | none => p

/-- posixpath `os.path.join` for two components (`util.fs_join` never sees
backslashes in this repository). -/
def joinPath (a b : List Char) : List Char :=
  if startsWithL (S "/") b then b
  else if a = [] ∨ endsWithL (S "/") a then a ++ b
  else a ++ '/' :: b

/-! ## `urls.py`: `file_ext`, `extract_proto`, handler matching -/

/-- `urls.file_ext`: the lower-cased extension without its dot, `None` when
there is none or when it is the wildcard `*`. -/
def file_ext (v : List Char) : Option (List Char) :=
  let e := (splitextL v).2.drop 1
  if e = S "*" then none
  else if e ≠ [] then some (lowerStr e) else none

/-- `urls.extract_proto`. -/
def extract_proto (url : List Char) : Except PyErr (List Char) := do
  let parts ← parse_url_to_dict url
  match parts.scheme_extension with
  | some e =>
    if e ≠ [] then Except.ok e
    else Except.ok (if parts.scheme = S "https" then S "http"
                    else if parts.scheme = [] then S "file" else parts.scheme)
  | none =>
    Except.ok (if parts.scheme = S "https" then S "http"
               else if parts.scheme = [] then S "file" else parts.scheme)

/-- Keyword arguments accepted by the `Url` constructors. -/
structure Kwargs where
  scheme : Option (List Char) := none
  proto : Option (List Char) := none
  resource_url : Option (List Char) := none
  resource_file : Option (List Char) := none
  resource_format : Option (List Char) := none
  target_file : Option (List Char) := none
  target_format : Option (List Char) := none
  encoding : Option (List Char) := none
  target_segment : Option (List Char) := none
  force_archive : Bool := false
  deriving Repr, DecidableEq

/-- The `Url` subclasses appearing in `url_handlers`. -/
inductive Handler where
  | noteboot | program | metatab | ckan | socrata | google | zip | excel | s3
  | application | general
  deriving Repr, DecidableEq

/-- The per-class `match` classmethods. -/
def matchHandler (h : Handler) (url : List Char) (kw : Kwargs) : Except PyErr Bool := do
  match h with
  | .noteboot => Except.ok ((← extract_proto url) = S "ipynb")
  | .program => Except.ok ((← extract_proto url) = S "program")
  | .metatab => Except.ok ((← extract_proto url) = S "metatab")
  | .ckan => Except.ok ((← extract_proto url) = S "ckan")
  | .socrata => Except.ok ((← extract_proto url) = S "socrata")
  | .google => Except.ok ((← extract_proto url) = S "gs")
  | .zip => do
    let parts ← parse_url_to_dict url
    Except.ok (file_ext parts.path = some (S "zip") ∨ kw.force_archive)
  | .excel => do
    let parts ← parse_url_to_dict url
    Except.ok (file_ext parts.path = some (S "xls") ∨ file_ext parts.path = some (S "xlsx"))
  | .s3 => Except.ok ((← extract_proto url) = S "s3")
  | .application => do
    let p ← extract_proto url
    Except.ok (¬(p = S "file" ∨ p = S "ftp" ∨ p = S "http" ∨ p = S "https"))
  | .general => Except.ok true

/-- The priority-ordered handler list `url_handlers`. -/
def url_handlers : List Handler :=
  [.noteboot, .program, .metatab, .ckan, .socrata, .google, .zip, .excel, .s3,
   .application, .general]

def get_handler_aux : List Handler → List Char → Kwargs → Except PyErr Handler
  | [], _, _ => .ok .general
  | h :: t, url, kw => do
    if (← matchHandler h url kw) then Except.ok h else get_handler_aux t url kw

/-- `urls.get_handler`: first-match-wins over `url_handlers`, falling back to
`GeneralUrl`. -/
def get_handler (url : List Char) (kw : Kwargs) : Except PyErr Handler :=
  get_handler_aux url_handlers url kw

/-! ## The `Url` object state and its processing pipeline -/

/-- `Url.url_parts` result: the parsed dict plus the `resource_format` key
that `url_parts` adds (and `parts.update(kwargs)` applied to the colliding
`scheme` and `resource_format` keys). -/
structure BunchParts where
  dict : UrlDict
  resource_format : Option (List Char)
  deriving Repr, DecidableEq

def url_parts (url : List Char) (kw : Kwargs) : Except PyErr BunchParts := do
  let d ← parse_url_to_dict url
  let rf := file_ext d.path
  let d := match kw.scheme with | some s => { d with scheme := s } | none => d
  let rf := match kw.resource_format with | some r => some r | none => rf
  Except.ok ⟨d, rf⟩

/-- The attribute state of a `Url` instance. -/
structure UrlData where
  handler : Handler
  url : List Char
  parts : BunchParts
  scheme : List Char
  proto : Option (List Char)
  resource_url : Option (List Char)
  resource_file : Option (List Char)
  resource_format : Option (List Char)
  target_file : Option (List Char)
  target_format : Option (List Char)
  encoding : Option (List Char)
  target_segment : Option (List Char)
  deriving Repr, DecidableEq

/-- `Url.is_archive`: `resource_format in archive_formats` with
`archive_formats = ['zip']`. -/
def is_archive (u : UrlData) : Bool := u.resource_format = some (S "zip")

/-- `Url.archive_file()`. -/
def archive_file (u : UrlData) : Option (List Char) :=
  if is_archive u ∧ u.resource_file ≠ u.target_file then u.target_file else none

/-- `Url.decompose_fragment`. -/
def decompose_fragment (frag : List Char) (isArchive : Bool) :
    Option (List Char) × Option (List Char) :=
  let frag_parts := splitOnChar ';' (unquotePlus frag)
  match frag_parts with
  | [] => (none, none)
  | f0 :: rest =>
    if isArchive then
      if rest.length = 1 then (some f0, rest.head?) else (some f0, none)
    else (none, some f0)

/-- The `kwargs` mutations each subclass `__init__` performs before calling
`super().__init__`. -/
def applyInitKwargs (h : Handler) (kw : Kwargs) : Kwargs :=
  match h with
  | .noteboot => { kw with proto := some (S "ipynb") }
  | .program => { kw with proto := some (S "program") }
  | .metatab => { kw with proto := some (S "metatab") }
  | .ckan => { kw with proto := some (S "ckan") }
  | .socrata => { kw with resource_format := some (S "csv"), encoding := some (S "utf8"),
                          proto := some (S "socrata") }
  | .google => { kw with resource_format := some (S "csv"), encoding := some (S "utf8"),
                         proto := some (S "gs") }
  | .zip => { kw with resource_format := some (S "zip") }
  | .s3 => { kw with proto := some (S "s3") }
  | _ => kw

/-- `Url._extract_parts` (overridden by `ProgramUrl` and `NotebootUrl` to
rewrite the scheme and scheme-extension). -/
def extractParts (h : Handler) (url0 : List Char) (kw : Kwargs) :
    Except PyErr (List Char × BunchParts) := do
  match h with
  | .program => do
    let parts0 ← url_parts url0 kw
    let u ← reparse_url url0
      { scheme := some (some (if parts0.dict.scheme ≠ S "program" then parts0.dict.scheme else S "file")),
        scheme_extension := some (some (S "program")) }
    let parts ← url_parts u kw
    Except.ok (u, parts)
  | .noteboot => do
    let parts0 ← url_parts url0 kw
    let u ← reparse_url url0
      { scheme := some (some (if parts0.dict.scheme ≠ S "ipynb" then parts0.dict.scheme else S "file")),
        scheme_extension := some (some (S "ipynb")) }
    let parts ← url_parts u kw
    Except.ok (u, parts)
  | _ => do
    let u ← reparse_url url0 {}
    let parts ← url_parts u kw
    Except.ok (u, parts)

/-- `Url._assign_args`. -/
def assignArgs (h : Handler) (u : List Char) (parts : BunchParts) (kw : Kwargs) : UrlData :=
  { handler := h, url := u, parts := parts,
    scheme := kw.scheme.getD parts.dict.scheme,
    proto := kw.proto,
    resource_url := kw.resource_url,
    resource_file := kw.resource_file,
    resource_format := kw.resource_format,
    target_file := kw.target_file,
    target_format := match kw.target_format with
                     | some t => if t ≠ [] then some (lowerStr t) else some t
                     | none => none,
    encoding := kw.encoding,
    target_segment := kw.target_segment }

/-- `Url._process_proto`. -/
def processProto (u : UrlData) : Except PyErr UrlData := do
  if truthy u.proto then Except.ok u
  else do
    let p ← extract_proto u.url
    Except.ok { u with proto := some p }

/-- `Url._process_fragment` (base version). -/
def processFragmentBase (u : UrlData) : UrlData :=
  let (tf, seg) :=
    if truthy u.parts.dict.fragment then
      decompose_fragment (u.parts.dict.fragment.getD []) (is_archive u)
    else (none, none)
  let u := { u with target_segment := seg }
  if ¬truthy u.target_file ∧ truthy tf then { u with target_file := tf } else u

/-- `Url._process_resource_url` (base version). -/
def processResourceUrlBase (u : UrlData) : Except PyErr UrlData := do
  let ru := unparse_url_dict u.parts.dict
    { scheme := some (some (if u.parts.dict.scheme ≠ [] then u.parts.dict.scheme else S "file")),
      scheme_extension := some none, fragment := some none }
  let rf := basenameL (← reparse_url ru { query := some none })
  let u := { u with resource_url := some ru, resource_file := some rf }
  if ¬truthy u.resource_format then
    Except.ok { u with resource_format := file_ext rf }
  else Except.ok u

/-- `Url._process_target_file` (base version). -/
def processTargetFileBase (u : UrlData) : Except PyErr UrlData := do
  let u ←
    if ¬truthy u.target_file then do
      let tf := basenameL (← reparse_url (u.resource_url.getD []) { query := some none })
      Except.ok { u with target_file := some tf }
    else Except.ok u
  let u :=
    if ¬truthy u.target_format then { u with target_format := file_ext (u.target_file.getD []) }
    else u
  let u :=
    if ¬truthy u.target_format then { u with target_format := u.resource_format }
    else u
  Except.ok u

/-! ### Variant-specific processing steps -/

/-- `GoogleProtoCsvUrl._process_resource_url` (it first re-runs the base
fragment processing, then rewrites the resource to the CSV-export endpoint). -/
def processResourceUrlGoogle (u : UrlData) : UrlData :=
  let u := processFragmentBase u
  let ru := S "https://docs.google.com/spreadsheets/d/" ++ u.parts.dict.netloc
            ++ S "/export?format=csv"
  let rfile := u.parts.dict.netloc
  let (ru, rfile) :=
    if truthy u.target_segment then
      (ru ++ S "&gid=" ++ u.target_segment.getD [],
       rfile ++ '-' :: u.target_segment.getD [])
    else (ru, rfile)
  let rfile := rfile ++ S ".csv"
  let u := { u with resource_url := some ru, resource_file := some rfile }
  let u :=
    match u.resource_format with
    | none => { u with resource_format := file_ext rfile }
    | some _ => u
  { u with target_file := some rfile }

/-- `SocrataUrl._process_resource_url`. -/
def processResourceUrlSocrata (u : UrlData) : UrlData :=
  let ru := unparse_url_dict u.parts.dict
    { scheme_extension := some none, fragment := some none,
      path := some (some (joinPath u.parts.dict.path (S "rows.csv"))) }
  let rfile := basenameL u.url ++ S ".csv"
  let u := { u with resource_url := some ru, resource_file := some rfile }
  let u :=
    match u.resource_format with
    | none => { u with resource_format := file_ext rfile }
    | some _ => u
  { u with target_file := some rfile }

/-- `S3Url._process_resource_url`. -/
def processResourceUrlS3 (u : UrlData) : UrlData :=
  let bucket := u.parts.dict.netloc
  let key := stripChar '/' u.parts.dict.path
  let ru := S "https://s3.amazonaws.com/" ++ bucket ++ '/' :: key
  let rfile := basenameL ru
  let u := { u with resource_url := some ru, resource_file := some rfile }
  match u.resource_format with
  | none => { u with resource_format := file_ext rfile }
  | some _ => u

/-- `MetatabPackageUrl._process_resource_url`. -/
def processResourceUrlMetatab (u : UrlData) : UrlData :=
  let ru := unparse_url_dict u.parts.dict
    { scheme_extension := some none, fragment := some none }
  let rf := file_ext ru
  let (rf, rfile, ru) :=
    if rf = some (S "zip") ∨ rf = some (S "xlsx") ∨ rf = some (S "csv") then
      (rf, basenameL ru, ru)
    else
      (some (S "csv"), S "metadata.csv", ru ++ S "/metadata.csv")
  let tf :=
    if rf = some (S "xlsx") then S "meta"
    else if rf = some (S "zip") then S "metadata.csv"
    else rfile
  { u with resource_url := some ru, resource_file := some rfile, resource_format := rf,
           target_file := some tf, target_format := some (S "metatab") }

/-- `ProgramUrl._process_resource_url`. -/
def processResourceUrlProgram (u : UrlData) : UrlData :=
  let ru := unparse_url_dict u.parts.dict
    { scheme := some (some (if u.parts.dict.scheme ≠ [] then u.parts.dict.scheme else S "file")),
      scheme_extension := some none, fragment := some none }
  let rfile := basenameL ru
  let u := { u with resource_url := some ru, resource_file := some rfile }
  if ¬truthy u.resource_format then { u with resource_format := file_ext rfile } else u

/-- `NotebootUrl._process_resource_url`. -/
def processResourceUrlNoteboot (u : UrlData) : UrlData :=
  let ru := stripChar '/' (unparse_url_dict u.parts.dict
    { scheme := some (some (if u.parts.dict.scheme ≠ S "ipynb" then u.parts.dict.scheme else S "file")),
      scheme_extension := some none, fragment := some none })
  let rfile := basenameL ru
  let u := { u with resource_url := some ru, resource_file := some rfile }
  if ¬truthy u.resource_format then { u with resource_format := file_ext rfile } else u

/-- Dispatch of `_process_resource_url` over the class hierarchy. -/
def processResourceUrl (h : Handler) (u : UrlData) : Except PyErr UrlData :=
  match h with
  | .google => Except.ok (processResourceUrlGoogle u)
  | .socrata => Except.ok (processResourceUrlSocrata u)
  | .s3 => Except.ok (processResourceUrlS3 u)
  | .metatab => Except.ok (processResourceUrlMetatab u)
  | .program => Except.ok (processResourceUrlProgram u)
  | .noteboot => Except.ok (processResourceUrlNoteboot u)
  | _ => processResourceUrlBase u

/-- `ZipUrl._process_fragment`: overwrites both target fields
unconditionally. -/
def processFragmentZip (u : UrlData) : UrlData :=
  if truthy u.parts.dict.fragment then
    let (tf, seg) := decompose_fragment (u.parts.dict.fragment.getD []) (is_archive u)
    { u with target_file := tf, target_segment := seg }
  else
    { u with target_file := none, target_segment := none }

/-- Dispatch of `_process_fragment` over the class hierarchy
(`MetatabPackageUrl` and `NotebootUrl` take the raw fragment as the target
segment). -/
def processFragment (h : Handler) (u : UrlData) : UrlData :=
  match h with
  | .zip => processFragmentZip u
  | .metatab => { u with target_segment := u.parts.dict.fragment }
  | .noteboot => { u with target_segment := u.parts.dict.fragment }
  | _ => processFragmentBase u

/-- One iteration of the `for ext in ('csv', 'xls', 'xlsx')` loop of
`ZipUrl._process_target_file`. -/
def zipExtStep (rfile ext : List Char) (u : UrlData) : UrlData :=
  if endsWithL ('.' :: ext ++ S ".zip") rfile then
    { u with target_file := some (replaceAll (S ".zip") [] rfile) }
  else u

/-- `ZipUrl._process_target_file`: the `name.csv.zip` double-extension rule. -/
def processTargetFileZip (u : UrlData) : UrlData :=
  let rfile := u.resource_file.getD []
  let u := zipExtStep rfile (S "xlsx") (zipExtStep rfile (S "xls") (zipExtStep rfile (S "csv") u))
  if truthy u.target_file ∧ ¬truthy u.target_format then
    { u with target_format := file_ext (u.target_file.getD []) }
  else u

/-- Dispatch of `_process_target_file` (`NotebootUrl` adds the
`target_format == 'ipynb'` assertion). -/
def processTargetFile (h : Handler) (u : UrlData) : Except PyErr UrlData :=
  match h with
  | .zip => Except.ok (processTargetFileZip u)
  | .noteboot => do
    let u ← processTargetFileBase u
    if u.target_format = some (S "ipynb") then Except.ok u
    else Except.error PyErr.assertionError
  | _ => processTargetFileBase u

/-- `Url._process`. -/
def processAll (h : Handler) (u : UrlData) : Except PyErr UrlData := do
  let u ← processProto u
  let u ← processResourceUrl h u
  let u := processFragment h u
  processTargetFile h u

/-- `Url(url, **kwargs)`: handler selection via `__new__`, then `__init__`. -/
def mkUrl (url0 : List Char) (kw : Kwargs) : Except PyErr UrlData := do
  let h ← get_handler url0 kw
  let kw := applyInitKwargs h kw
  let (u, parts) ← extractParts h url0 kw
  processAll h (assignArgs h u parts kw)

/-! ### `rebuild_url` and `update` -/

/-- `Url.rebuild_url` (base version).  The Python `target_file=False` /
`target_segment=False` forms and integer segments are not exercised by this
repository's `update` and are not modelled: an absent or empty argument takes
the default branch, exactly as `None`/`''` do in the source. -/
def rebuild_url (u : UrlData) (tfArg tsArg : Option (List Char)) :
    Except PyErr (List Char) := do
  let tf : Option (List Char) :=
    match tfArg with
    | some s => if s ≠ [] then some s else archive_file u
    | none => archive_file u
  let ts : Option (List Char) :=
    match tsArg with
    | some s => if s ≠ [] then some s else u.target_segment
    | none => u.target_segment
  let parts ← parse_url_to_dict u.url
  let fBase := if truthy tf then tf.getD [] else []
  let sep : List Char := if truthy tf then [';'] else []
  let f := if truthy ts then fBase ++ sep ++ ts.getD [] else fBase
  Except.ok (unparse_url_dict parts
    { fragment := some (if f = [] then none else some f) })

/-- `ExcelUrl.rebuild_url`. -/
def rebuild_url_excel (u : UrlData) (tsArg : Option (List Char)) :
    Except PyErr (List Char) := do
  let ts : Option (List Char) :=
    match tsArg with
    | some s => if s ≠ [] then some s else u.target_segment
    | none => u.target_segment
  reparse_url u.url { fragment := some ts }

def rebuildUrlDispatch (u : UrlData) (tfArg tsArg : Option (List Char)) :
    Except PyErr (List Char) :=
  match u.handler with
  | .excel => rebuild_url_excel u tsArg
  | _ => rebuild_url u tfArg tsArg

/-- `Url.update(**kwargs)`: construct a new `Url` from the rebuilt locator
string with every field defaulted from the old object, then re-run the
derivation steps. -/
def update (u : UrlData) (kw : Kwargs) : Except PyErr UrlData := do
  let newUrl ← rebuildUrlDispatch u (kw.target_file <|> u.target_file)
    (kw.target_segment <|> u.target_segment)
  let kw2 : Kwargs :=
    { scheme := some (kw.scheme.getD u.scheme),
      proto := kw.proto <|> u.proto,
      resource_url := kw.resource_url <|> u.resource_url,
      resource_file := kw.resource_file <|> u.resource_file,
      resource_format := kw.resource_format <|> u.resource_format,
      target_file := kw.target_file <|> u.target_file,
      target_format := kw.target_format <|> u.target_format,
      encoding := kw.encoding <|> u.encoding,
      target_segment := kw.target_segment <|> u.target_segment }
  let o ← mkUrl newUrl kw2
  let o ← processResourceUrl o.handler o
  let o := processFragment o.handler o
  processTargetFile o.handler o

/-! ## `fetch.py`: cache-path derivation, SHA-224, download state machine -/

/-- SHA-224 (FIPS 180-4), on byte lists, words as `Nat` modulo `2^32`. -/
def rotr32 (x n : Nat) : Nat := (x % 2 ^ n) * 2 ^ (32 - n) + x / 2 ^ n

def smallSigma0 (w : Nat) : Nat := rotr32 w 7 ^^^ rotr32 w 18 ^^^ w / 2 ^ 3
def smallSigma1 (w : Nat) : Nat := rotr32 w 17 ^^^ rotr32 w 19 ^^^ w / 2 ^ 10
def bigSigma0 (a : Nat) : Nat := rotr32 a 2 ^^^ rotr32 a 13 ^^^ rotr32 a 22
def bigSigma1 (e : Nat) : Nat := rotr32 e 6 ^^^ rotr32 e 11 ^^^ rotr32 e 25
def chF (e f g : Nat) : Nat := (e &&& f) ^^^ ((e ^^^ 4294967295) &&& g)
def majF (a b c : Nat) : Nat := (a &&& b) ^^^ (a &&& c) ^^^ (b &&& c)

def shaKpart0 : List Nat :=
  [1116352408, 1899447441, 3049323471, 3921009573, 961987163, 1508970993, 2453635748, 2870763221]

def shaKpart1 : List Nat :=
  [3624381080, 310598401, 607225278, 1426881987, 1925078388, 2162078206, 2614888103, 3248222580]

def shaKpart2 : List Nat :=
  [3835390401, 4022224774, 264347078, 604807628, 770255983, 1249150122, 1555081692, 1996064986]

def shaKpart3 : List Nat :=
  [2554220882, 2821834349, 2952996808, 3210313671, 3336571891, 3584528711, 113926993, 338241895]

def shaKpart4 : List Nat :=
  [666307205, 773529912, 1294757372, 1396182291, 1695183700, 1986661051, 2177026350, 2456956037]

def shaKpart5 : List Nat :=
  [2730485921, 2820302411, 3259730800, 3345764771, 3516065817, 3600352804, 4094571909, 275423344]

def shaKpart6 : List Nat :=
  [430227734, 506948616, 659060556, 883997877, 958139571, 1322822218, 1537002063, 1747873779]

def shaKpart7 : List Nat :=
  [1955562222, 2024104815, 2227730452, 2361852424, 2428436474, 2756734187, 3204031479, 3329325298]

/-- The 64 SHA-256 round constants (FIPS 180-4 §4.2.2), written in decimal. -/
def shaK : List Nat :=
  shaKpart0 ++ shaKpart1 ++ shaKpart2 ++ shaKpart3 ++ shaKpart4 ++ shaKpart5 ++
  shaKpart6 ++ shaKpart7

/-- The SHA-224 initial hash value (FIPS 180-4 §5.3.2), in decimal. -/
def sha224IV : List Nat :=
  [3238371032, 914150663, 812702999, 4144912697, 4290775857, 1750603025, 1694076839, 3204075428]

def natToBytesBE (n count : Nat) : List Nat :=
  (List.range count).reverse.map (fun i => n / 256 ^ i % 256)

def bytesToWords : List Nat → List Nat
  | b0 :: b1 :: b2 :: b3 :: t => (((b0 * 256 + b1) * 256 + b2) * 256 + b3) :: bytesToWords t
  | _ => []

/-- Message-schedule extension: prepend `n` further words to the reversed
schedule. -/
def extendW : Nat → List Nat → List Nat
  | 0, wrev => wrev
  | n + 1, wrev =>
    let g := fun (k : Nat) => wrev.getD (k - 1) 0
    extendW n (((smallSigma1 (g 2) + g 7 + smallSigma0 (g 15) + g 16) % 4294967296) :: wrev)

def shaRound (st : List Nat) (wk : Nat × Nat) : List Nat :=
  match st with
  | [a, b, c, d, e, f, g, h] =>
    let t1 := (h + bigSigma1 e + chF e f g + wk.2 + wk.1) % 4294967296
    let t2 := (bigSigma0 a + majF a b c) % 4294967296
    [(t1 + t2) % 4294967296, a, b, c, (d + t1) % 4294967296, e, f, g]
  | st => st

def shaCompress (hs block : List Nat) : List Nat :=
  let w := (extendW 48 (bytesToWords block).reverse).reverse
  let st := (w.zip shaK).foldl shaRound hs
  (hs.zip st).map (fun p => (p.1 + p.2) % 4294967296)

def shaBlocksGo (fuel : Nat) (hs : List Nat) (bytes : List Nat) : List Nat :=
  match fuel, bytes with
  | _, [] => hs
  | 0, _ => hs   -- fuel exhausted: unreachable when fuel ≥ bytes.length
  | fuel + 1, b :: bs => shaBlocksGo fuel (shaCompress hs ((b :: bs).take 64)) ((b :: bs).drop 64)

def shaBlocks (hs : List Nat) (bytes : List Nat) : List Nat :=
  shaBlocksGo bytes.length hs bytes

def shaPad (msg : List Nat) : List Nat :=
  let L := msg.length
  let k := (56 + 64 - (L + 1) % 64) % 64
  msg ++ 0x80 :: List.replicate k 0 ++ natToBytesBE (L * 8) 8

def hexDigitLower (n : Nat) : Char :=
  if n < 10 then Char.ofNat ('0'.toNat + n) else Char.ofNat ('a'.toNat + (n - 10))

def byteToHexLower (b : Nat) : List Char := [hexDigitLower (b / 16), hexDigitLower (b % 16)]

/-- `hashlib.sha224(s.encode('utf8')).hexdigest()`. -/
def sha224Hex (s : List Char) : List Char :=
  let bytes := s.flatMap utf8Encode
  let hs := shaBlocks sha224IV (shaPad bytes)
  ((hs.take 7).flatMap (fun w => natToBytesBE w 4)).flatMap byteToHexLower

/-- The cache-path derivation of `fetch.download` (fetch.py lines 257-270):
`os.path.join(parsed.netloc, parsed.path.strip('/'))`, with the sha224 hex
digest of the query appended as a further component when the query is
non-empty. -/
def cachePathFor (url : List Char) : List Char :=
  let parsed := urlparseL url
  let cache_path := joinPath parsed.netloc (stripChar '/' parsed.path)
  if parsed.query ≠ [] then joinPath cache_path (sha224Hex parsed.query)
  else cache_path

/-! ### The download state machine -/

/-- The cache filesystem, as the set of paths that currently exist.
(`makedirs` and the directory-collision rename fallback of fetch.py lines
273-293 concern directory entries only and are outside this file-set model.) -/
structure FileSys where
  files : List (List Char)
  deriving Repr, DecidableEq

def FileSys.existsP (fs : FileSys) (p : List Char) : Bool := fs.files.contains p
def FileSys.add (fs : FileSys) (p : List Char) : FileSys :=
  if fs.existsP p then fs else ⟨p :: fs.files⟩
def FileSys.removeP (fs : FileSys) (p : List Char) : FileSys :=
  ⟨fs.files.filter (fun q => q ≠ p)⟩

/-- Observable cache effects, used to count transfers and removals. -/
inductive FetchEff where
  | transfer (url : List Char)
  | removeEff (path : List Char)
  deriving Repr, DecidableEq

/-- Mid-transfer failures of `_download`.  `requests.HTTPError` is raised only
by `raise_for_status()`, which the code runs *before* opening the cache file,
so it is not a mid-transfer failure; mid-transfer exceptions (connection
errors, `fs.errors.ResourceNotFound` from the S3 branch, `KeyboardInterrupt`)
are therefore a separate type that never maps to `PyErr.httpError`. -/
inductive TransportErr where
  | interrupt
  | connection
  | resourceNotFound
  deriving Repr, DecidableEq

def TransportErr.toPyErr : TransportErr → PyErr
  | .interrupt => .interrupt
  | .connection => .otherError
  | .resourceNotFound => .ioError

/-- The abstract outcome of one attempted transfer: the network and remote
side are outside the model, so the caller supplies what happened. -/
inductive TransferOutcome where
  | success
  /-- `r.raise_for_status()` raised `requests.HTTPError`
  (before `cache_fs.open(cache_path, 'wb')`: nothing was written). -/
  | failHttp
  /-- A failure during the streamed copy; `wrote` tells whether a partial
  cache file had already been created. -/
  | failMid (e : TransportErr) (wrote : Bool)
  deriving Repr, DecidableEq

/-- `fetch._download`: the branch on transport is irrelevant to the cache
file-set; what matters is whether the cache path was written before the
outcome. -/
def downloadInner (url : List Char) (cache_path : List Char) (outcome : TransferOutcome)
    (fs : FileSys) : Except PyErr Unit × FileSys × List FetchEff :=
  match outcome with
  | .success => (Except.ok (), fs.add cache_path, [.transfer url])
  | .failHttp => (Except.error PyErr.httpError, fs, [])
  | .failMid e wrote =>
    (Except.error e.toPyErr, if wrote then fs.add cache_path else fs, [.transfer url])

/-- `fetch.download` (fetch.py lines 236-332): cache-path derivation, lock
section with the clean/exists checks, `_download`, and the exception handlers
(`HTTPError` re-raised as `SourceError`; anything else, including
`KeyboardInterrupt`, removes the partial cache entry and re-raises). -/
def download (url : List Char) (clean : Bool) (now : Nat) (outcome : TransferOutcome)
    (fs : FileSys) :
    Except PyErr (List Char × Option Nat) × FileSys × List FetchEff :=
  let cache_path := cachePathFor url
  if fs.existsP cache_path ∧ ¬clean then
    (Except.ok (cache_path, none), fs, [])
  else
    let fs1 := if fs.existsP cache_path ∧ clean then fs.removeP cache_path else fs
    let effs0 : List FetchEff :=
      if fs.existsP cache_path ∧ clean then [FetchEff.removeEff cache_path] else []
    match downloadInner url cache_path outcome fs1 with
    | (Except.ok _, fs', effs') => (Except.ok (cache_path, some now), fs', effs0 ++ effs')
    | (Except.error e, fs', effs') =>
      if e = PyErr.httpError then (Except.error PyErr.sourceError, fs', effs0 ++ effs')
      else
        let fs'' := if fs'.existsP cache_path then fs'.removeP cache_path else fs'
        let effs'' : List FetchEff :=
          if fs'.existsP cache_path then [FetchEff.removeEff cache_path] else []
        (Except.error e, fs'', effs0 ++ effs' ++ effs'')

/-- A resource spec as `download_and_cache` consumes it (`spec.proto` and
`spec.resource_url`). -/
structure SourceSpecM where
  proto : List Char
  resource_url : List Char
  deriving Repr, DecidableEq

/-- `fetch.download_and_cache` restricted to what it returns: for a `file:`
proto the path component of the resource URL with no download time (raising
`IOError` when the file does not exist on the local filesystem `localFs`);
otherwise the result of `download`. -/
def download_and_cache (spec : SourceSpecM) (clean : Bool) (now : Nat)
    (outcome : TransferOutcome) (fs : FileSys) (localFs : FileSys) :
    Except PyErr (List Char × Option Nat) × FileSys × List FetchEff :=
  if spec.proto = S "file" then
    match parse_url_to_dict spec.resource_url with
    | Except.error e => (Except.error e, fs, [])
    | Except.ok d =>
      if localFs.existsP d.path then (Except.ok (d.path, none), fs, [])
      else (Except.error PyErr.ioError, fs, [])
  else
    download spec.resource_url clean now outcome fs

/-- Positional encoding of a character list as a natural number (used to map
fixed-length digests into a finite type). -/
def charListToNat : List Char → Nat :=
  List.foldr (fun c a => c.toNat + 1114112 * a) 0

/-- The parameterized-endpoint family used to exhibit a sha224 collision
abstractly: `http://h/p?aa…a`. -/
def aQueryUrl (n : Nat) : List Char := S "http://h/p?" ++ List.replicate n 'a'

/-- The spec-side invariant of C9: a format field is `None` or a lower-case
string (a string containing no ASCII upper-case letter, which is what
`str.lower` leaves behind on ASCII data). -/
def lowercaseOrNone (o : Option (List Char)) : Bool :=
  match o with
  | none => true
  | some s => s.all (fun c => ! isAsciiUpper c)

/-! # Claims -/

/-! ## General lemmas about the embedded primitives -/

theorem splitOnChar_ne_nil (sep : Char) (s : List Char) : splitOnChar sep s ≠ [] := by
  cases s with
  | nil => simp [splitOnChar]
  | cons c t =>
    simp only [splitOnChar]
    split
    · simp
    · cases splitOnChar sep t with
      | nil => simp
      | cons h t' => simp

theorem bindE_ok {α β : Type} (a : α) (f : α → Except PyErr β) :
    (Except.ok a : Except PyErr α) >>= f = f a := rfl

theorem bindE_error {α β : Type} (e : PyErr) (f : α → Except PyErr β) :
    (Except.error e : Except PyErr α) >>= f = Except.error e := rfl

/-! ## C2: fragment decomposition -/

/-- **C2.** For every fragment string: on an archive, decomposition splits the
unquoted fragment on `;` — one part yields `target_file` only
(`target_segment` unset), two parts yield `(target_file, target_segment)`; on
a non-archive the fragment yields only a `target_segment` and never a
`target_file`.  In particular `"a.csv;Sheet1"` on an archive gives
`target_file="a.csv"`, `target_segment="Sheet1"`, and `"a.csv"` alone leaves
`target_segment` unset. -/
theorem claim_c2_decompose_fragment :
    (∀ frag : List Char,
      let ps := splitOnChar ';' (unquotePlus frag)
      (ps.length = 1 → decompose_fragment frag true = (some (ps.headD []), none)) ∧
      (ps.length = 2 → decompose_fragment frag true = (some (ps.headD []), ps.get? 1)) ∧
      decompose_fragment frag false = (none, some (ps.headD []))) ∧
    decompose_fragment (S "a.csv;Sheet1") true = (some (S "a.csv"), some (S "Sheet1")) ∧
    decompose_fragment (S "a.csv") true = (some (S "a.csv"), none) := by
  refine ⟨fun frag => ?_, by decide, by decide⟩
  intro ps
  have hne : ps ≠ [] := splitOnChar_ne_nil ';' (unquotePlus frag)
  have hps : splitOnChar ';' (unquotePlus frag) = ps := rfl
  match h : ps, hne with
  | f0 :: rest, _ =>
    refine ⟨fun h1 => ?_, fun h2 => ?_, ?_⟩
    · have hr : rest = [] := by
        simp only [List.length_cons] at h1
        exact List.eq_nil_of_length_eq_zero (by omega)
      subst hr
      simp [decompose_fragment, hps]
    · have hr : rest.length = 1 := by
        simp only [List.length_cons] at h2
        omega
      match rest, hr with
      | [r1], _ => simp [decompose_fragment, hps]
    · simp [decompose_fragment, hps]

/-- Witness for C2, instantiating the one-part and two-part hypotheses. -/
theorem claim_c2_witness :
    ((splitOnChar ';' (unquotePlus (S "f.csv"))).length = 1 ∧
      decompose_fragment (S "f.csv") true = (some (S "f.csv"), none)) ∧
    ((splitOnChar ';' (unquotePlus (S "f.csv;Sh"))).length = 2 ∧
      decompose_fragment (S "f.csv;Sh") true = (some (S "f.csv"), some (S "Sh"))) := by
  refine ⟨⟨by decide, ?_⟩, ⟨by decide, ?_⟩⟩
  · exact ((claim_c2_decompose_fragment.1 (S "f.csv")).1 (by decide))
  · exact ((claim_c2_decompose_fragment.1 (S "f.csv;Sh")).2.1 (by decide))

/-! ## Counterexamples for the corrected claims -/

/-- **C1, counterexample.**  Classification is *not* total: on the locator
string `"x+y+z://a"` the scheme `x+y+z` makes `parse_url_to_dict` (and hence
`extract_proto` inside the very first `match`) raise `ValueError`
(`scheme_extension, scheme = p.scheme.split('+')` unpacks three pieces into
two), so `get_handler` raises instead of selecting a variant. -/
theorem claim_c1_counterexample :
    get_handler (S "x+y+z://a") {} = Except.error PyErr.valueError ∧
    parse_url_to_dict (S "x+y+z://a") = Except.error PyErr.valueError := by
  constructor <;> decide

/-- **C3, counterexample.**  `parse(unparse(parse(L)))` is not field-equivalent
to `parse(L)` for `L = "http://example.com"`: the empty path comes back as
`"/"` after the round trip. -/
theorem claim_c3_counterexample :
    ((parse_url_to_dict (S "http://example.com")).bind fun d =>
      (parse_url_to_dict (unparse_url_dict d {})).map fun d2 =>
        (d.path, d2.path, decide (d2 = d)))
    = Except.ok ([], S "/", false) := by decide

/-- **C4, counterexample.**  Overriding `target_file` alone does *not*
recompute `target_format` from the new extension: updating a `.csv` locator
with `target_file="b.xlsx"` keeps `target_format="csv"` (the claim predicts
`"xlsx"`). -/
theorem claim_c4_counterexample :
    ((mkUrl (S "http://ex.com/a.csv") {}).bind fun u =>
      (update u { target_file := some (S "b.xlsx") }).map fun u2 =>
        (u2.target_file, u2.target_format))
    = Except.ok (some (S "b.xlsx"), some (S "csv")) ∧
    some (S "csv") ≠ some (S "xlsx") := by
  constructor <;> decide

/-- **C5, counterexample.**  For `http://ex.com/data.zip.csv.zip` the code
removes *every* occurrence of `".zip"` (Python `str.replace`), producing
`target_file = "data.csv"`, not the claimed suffix-stripped
`"data.zip.csv"`. -/
theorem claim_c5_counterexample :
    (mkUrl (S "http://ex.com/data.zip.csv.zip") {}).map (fun u => u.target_file)
      = Except.ok (some (S "data.csv")) ∧
    S "data.csv" ≠ S "data.zip.csv" := by
  constructor <;> decide

/-- **C9, counterexample.**  A `resource_format` keyword override is assigned
verbatim by `_assign_args` (only `target_format` is lower-cased there), so an
upper-case override survives to the final descriptor. -/
theorem claim_c9_counterexample :
    (mkUrl (S "http://ex.com/a.csv") { resource_format := some (S "CSV") }).map
      (fun u => u.resource_format) = Except.ok (some (S "CSV")) ∧
    lowerStr (S "CSV") ≠ S "CSV" := by
  constructor <;> decide

/-! ## C6, C7, C10: the download state machine -/

theorem existsP_removeP (fs : FileSys) (p : List Char) :
    (fs.removeP p).existsP p = false := by
  simp [FileSys.removeP, FileSys.existsP, List.elem_eq_mem, List.mem_filter]

theorem existsP_add (fs : FileSys) (p : List Char) :
    (fs.add p).existsP p = true := by
  unfold FileSys.add
  split
  · assumption
  · simp [FileSys.existsP, List.elem_eq_mem]

/-- Helper: the state entering `_download` never contains the cache entry. -/
theorem entry_state_clean (fs : FileSys) (p : List Char) (clean : Bool)
    (h1 : ¬(fs.existsP p ∧ ¬clean)) :
    (if fs.existsP p ∧ clean then fs.removeP p else fs).existsP p = false := by
  split
  · exact existsP_removeP fs p
  · rename_i h2
    by_cases h3 : fs.existsP p = true
    · cases hc : clean
      · exact absurd ⟨h3, by simp [hc]⟩ h1
      · exact absurd ⟨h3, by simp [hc]⟩ h2
    · simpa using h3

/-- **C6.**  Whenever `download` propagates an error — an HTTP error status,
a transport failure, or an external interruption — the cache path does not
exist afterwards: any partially written entry has been deleted before the
error propagates. -/
theorem claim_c6_failed_download_cleans_cache :
    ∀ (url : List Char) (clean : Bool) (now : Nat) (outcome : TransferOutcome)
      (fs : FileSys) (e : PyErr) (fs' : FileSys) (effs : List FetchEff),
      download url clean now outcome fs = (Except.error e, fs', effs) →
      fs'.existsP (cachePathFor url) = false := by
  intro url clean now outcome fs e fs' effs h
  unfold download at h
  by_cases h1 : fs.existsP (cachePathFor url) ∧ ¬clean
  · rw [if_pos h1] at h
    exact absurd (congrArg Prod.fst h) (by simp)
  · rw [if_neg h1] at h
    have hfs1 := entry_state_clean fs (cachePathFor url) clean h1
    rcases outcome with _ | _ | ⟨te, wrote⟩ <;> simp only [downloadInner] at h
    · exact absurd (congrArg Prod.fst h) (by simp)
    · rw [if_pos trivial] at h
      have := congrArg (fun x => x.2.1) h
      simp only at this
      rw [← this]
      exact hfs1
    · have hne : TransportErr.toPyErr te ≠ PyErr.httpError := by
        cases te <;> simp [TransportErr.toPyErr]
      rw [if_neg hne] at h
      have := congrArg (fun x => x.2.1) h
      simp only at this
      rw [← this]
      cases wrote
      · simp [hfs1]
      · simp [existsP_add, existsP_removeP]

/-- Witness for C6: an interrupted transfer that had already written a partial
file ends with no entry at the cache path. -/
theorem claim_c6_witness :
    FileSys.existsP ⟨[]⟩ (cachePathFor (S "http://h/a.csv")) = false :=
  claim_c6_failed_download_cleans_cache (S "http://h/a.csv") false 7
    (TransferOutcome.failMid TransportErr.interrupt true) ⟨[]⟩ PyErr.interrupt ⟨[]⟩
    [FetchEff.transfer (S "http://h/a.csv"),
     FetchEff.removeEff (cachePathFor (S "http://h/a.csv"))]
    (by decide)

/-- **C7.**  Downloading the same resource URL twice without `clean` performs
exactly one transfer: the first call transfers and caches, the second call
(whatever outcome the network would have had) returns the cached path with no
effects at all.  With `clean` set, the existing entry is removed before the
new transfer. -/
theorem claim_c7_second_download_is_cache_hit :
    (∀ (url : List Char) (now1 now2 : Nat) (fs : FileSys) (outcome2 : TransferOutcome),
      fs.existsP (cachePathFor url) = false →
      download url false now1 TransferOutcome.success fs
        = (Except.ok (cachePathFor url, some now1), fs.add (cachePathFor url),
           [FetchEff.transfer url]) ∧
      download url false now2 outcome2 (fs.add (cachePathFor url))
        = (Except.ok (cachePathFor url, none), fs.add (cachePathFor url), [])) ∧
    (∀ (url : List Char) (now : Nat) (fs : FileSys),
      fs.existsP (cachePathFor url) = true →
      download url true now TransferOutcome.success fs
        = (Except.ok (cachePathFor url, some now),
           (fs.removeP (cachePathFor url)).add (cachePathFor url),
           [FetchEff.removeEff (cachePathFor url), FetchEff.transfer url])) := by
  constructor
  · intro url now1 now2 fs outcome2 hne
    constructor
    · simp [download, downloadInner, hne]
    · simp [download, existsP_add]
  · intro url now fs hex
    simp [download, downloadInner, hex]

/-- Witness for C7 on a concrete empty cache. -/
theorem claim_c7_witness :
    download (S "http://h/a.csv") false 1 TransferOutcome.success ⟨[]⟩
      = (Except.ok (cachePathFor (S "http://h/a.csv"), some 1),
         FileSys.add ⟨[]⟩ (cachePathFor (S "http://h/a.csv")),
         [FetchEff.transfer (S "http://h/a.csv")]) ∧
    download (S "http://h/a.csv") false 2 TransferOutcome.success
        (FileSys.add ⟨[]⟩ (cachePathFor (S "http://h/a.csv")))
      = (Except.ok (cachePathFor (S "http://h/a.csv"), none),
         FileSys.add ⟨[]⟩ (cachePathFor (S "http://h/a.csv")), []) :=
  (claim_c7_second_download_is_cache_hit.1 (S "http://h/a.csv") 1 2 ⟨[]⟩
    TransferOutcome.success (by decide))

/-- **C10.**  A successful `download` returns `(cache_path, download_time)`
where `download_time` is the wall-clock time exactly when a transfer was
performed and `None` exactly on a cache hit with no transfer; and
`download_and_cache` on a `file:`-proto spec always reports `None` with no
transfer. -/
theorem claim_c10_download_time_iff_transfer :
    (∀ (url : List Char) (clean : Bool) (now : Nat) (outcome : TransferOutcome)
       (fs : FileSys) (p : List Char) (t : Option Nat) (fs' : FileSys) (effs : List FetchEff),
      download url clean now outcome fs = (Except.ok (p, t), fs', effs) →
      (t = some now ∨ t = none) ∧
      (t = some now ↔ FetchEff.transfer url ∈ effs) ∧
      (t = none ↔ ∀ u, FetchEff.transfer u ∉ effs)) ∧
    (∀ (spec : SourceSpecM) (clean : Bool) (now : Nat) (outcome : TransferOutcome)
       (fs localFs : FileSys) (res : List Char × Option Nat) (fs' : FileSys)
       (effs : List FetchEff),
      spec.proto = S "file" →
      download_and_cache spec clean now outcome fs localFs = (Except.ok res, fs', effs) →
      res.2 = none ∧ effs = []) := by
  constructor
  · intro url clean now outcome fs p t fs' effs h
    unfold download at h
    by_cases h1 : fs.existsP (cachePathFor url) ∧ ¬clean
    · rw [if_pos h1] at h
      simp only [Prod.mk.injEq, Except.ok.injEq] at h
      obtain ⟨⟨hp', ht⟩, hfs, heffs⟩ := h
      subst ht heffs
      exact ⟨Or.inr rfl, by simp, by simp⟩
    · rw [if_neg h1] at h
      rcases outcome with _ | _ | ⟨te, wrote⟩ <;> simp only [downloadInner] at h
      · simp only [Prod.mk.injEq, Except.ok.injEq] at h
        obtain ⟨⟨hp', ht⟩, hfs, heffs⟩ := h
        subst ht heffs
        refine ⟨Or.inl rfl, by simp, ?_⟩
        constructor
        · intro hn
          cases hn
        · intro hall
          exact absurd (hall url (by split <;> simp)) (by simp)
      · rw [if_pos trivial] at h
        exact absurd (congrArg Prod.fst h) (by simp)
      · have hne : TransportErr.toPyErr te ≠ PyErr.httpError := by
          cases te <;> simp [TransportErr.toPyErr]
        rw [if_neg hne] at h
        exact absurd (congrArg Prod.fst h) (by simp)
  · intro spec clean now outcome fs localFs res fs' effs hproto h
    unfold download_and_cache at h
    rw [if_pos hproto] at h
    rcases hp : parse_url_to_dict spec.resource_url with e | d <;>
      rw [hp] at h <;> dsimp only at h
    · exact absurd (congrArg Prod.fst h) (by simp)
    · by_cases hex : localFs.existsP d.path = true
      · rw [if_pos hex] at h
        simp only [Prod.mk.injEq, Except.ok.injEq] at h
        obtain ⟨hres, hfs, heffs⟩ := h
        subst heffs
        exact ⟨by rw [← hres], rfl⟩
      · rw [if_neg hex] at h
        exact absurd (congrArg Prod.fst h) (by simp)

/-! ## C8: cache-path derivation -/

theorem length_flatMap_const {α β : Type} (f : α → List β) (k : Nat)
    (hf : ∀ x, (f x).length = k) (l : List α) : (l.flatMap f).length = k * l.length := by
  induction l with
  | nil => simp
  | cons a t ih =>
    simp only [List.flatMap_cons, List.length_append, hf, ih, List.length_cons]
    ring

theorem natToBytesBE_length (n count : Nat) : (natToBytesBE n count).length = count := by
  simp [natToBytesBE]

theorem shaRound_length (st : List Nat) (wk : Nat × Nat) :
    (shaRound st wk).length = st.length := by
  unfold shaRound
  split <;> simp

theorem foldl_shaRound_length (l : List (Nat × Nat)) :
    ∀ hs : List Nat, (l.foldl shaRound hs).length = hs.length := by
  induction l with
  | nil => intro hs; rfl
  | cons a t ih => intro hs; rw [List.foldl_cons, ih, shaRound_length]

theorem shaCompress_length (hs block : List Nat) :
    (shaCompress hs block).length = hs.length := by
  unfold shaCompress
  simp [foldl_shaRound_length]

theorem shaBlocksGo_length (fuel : Nat) :
    ∀ hs bytes : List Nat, (shaBlocksGo fuel hs bytes).length = hs.length := by
  induction fuel with
  | zero => intro hs bytes; cases bytes <;> rfl
  | succ n ih =>
    intro hs bytes
    cases bytes with
    | nil => rfl
    | cons b bs => rw [shaBlocksGo, ih, shaCompress_length]

theorem sha224Hex_length (q : List Char) : (sha224Hex q).length = 56 := by
  unfold sha224Hex shaBlocks
  rw [length_flatMap_const byteToHexLower 2 (fun b => rfl),
      length_flatMap_const (fun w => natToBytesBE w 4) 4 (fun w => natToBytesBE_length w 4),
      List.length_take, shaBlocksGo_length]
  decide

theorem hexDigitLower_ne_slash : ∀ n, n < 16 → hexDigitLower n ≠ '/' := by decide

theorem sha224Hex_no_slash (q : List Char) : '/' ∉ sha224Hex q := by
  unfold sha224Hex
  intro hmem
  simp only [List.mem_flatMap] at hmem
  obtain ⟨b, hb, hcmem⟩ := hmem
  obtain ⟨w, _, hbmem⟩ := hb
  have hb256 : b < 256 := by
    simp only [natToBytesBE, List.mem_map] at hbmem
    obtain ⟨i, _, hi⟩ := hbmem
    omega
  simp only [byteToHexLower, List.mem_cons, List.not_mem_nil, or_false] at hcmem
  rcases hcmem with h | h
  · exact hexDigitLower_ne_slash (b / 16) (by omega) h.symm
  · exact hexDigitLower_ne_slash (b % 16) (by omega) h.symm

theorem startsWith_slash_eq_false (s : List Char) (h : '/' ∉ s) :
    startsWithL (S "/") s = false := by
  cases s with
  | nil => rfl
  | cons c t =>
    have hc : c ≠ '/' := fun hcc => h (hcc ▸ List.mem_cons_self c t)
    show decide ((c :: t).take 1 = ['/']) = false
    simp [List.take, hc]

theorem joinPath_inj_right (a b1 b2 : List Char)
    (h1 : startsWithL (S "/") b1 = false) (h2 : startsWithL (S "/") b2 = false)
    (hne : b1 ≠ b2) : joinPath a b1 ≠ joinPath a b2 := by
  unfold joinPath
  rw [h1, h2]
  simp only [Bool.false_eq_true, if_false]
  split
  · intro h
    exact hne (List.append_cancel_left h)
  · intro h
    have := List.append_cancel_left h
    simp only [List.cons.injEq] at this
    exact hne this.2

theorem joinPath_length_ge (a b : List Char) :
    a.length + b.length ≤ (joinPath a b).length ∨ joinPath a b = b := by
  unfold joinPath
  split
  · right; rfl
  · split
    · left; simp
    · left
      simp [List.length_append]

theorem char_toNat_lt (c : Char) : c.toNat < 1114112 := by
  have h := c.valid
  unfold Nat.isValidChar at h
  show c.val.toNat < 1114112
  omega

theorem charListToNat_lt (s : List Char) : charListToNat s < 1114112 ^ s.length := by
  induction s with
  | nil => simp [charListToNat]
  | cons c t ih =>
    unfold charListToNat at *
    simp only [List.foldr_cons, List.length_cons, pow_succ]
    have hc := char_toNat_lt c
    have h2 : 1114112 * (List.foldr (fun c a => c.toNat + 1114112 * a) 0 t + 1)
        ≤ 1114112 * 1114112 ^ t.length := Nat.mul_le_mul_left _ ih
    omega

theorem charListToNat_inj : ∀ s1 s2 : List Char, s1.length = s2.length →
    charListToNat s1 = charListToNat s2 → s1 = s2 := by
  intro s1
  induction s1 with
  | nil =>
    intro s2 hlen _
    exact (List.eq_nil_of_length_eq_zero hlen.symm).symm
  | cons c t ih =>
    intro s2 hlen heq
    cases s2 with
    | nil => simp at hlen
    | cons c2 t2 =>
      unfold charListToNat at heq
      simp only [List.foldr_cons] at heq
      have hc := char_toNat_lt c
      have hc2 := char_toNat_lt c2
      have hceq : c.toNat = c2.toNat := by omega
      have hteq : charListToNat t = charListToNat t2 := by
        unfold charListToNat
        omega
      have hcc : c = c2 := Char.ext (UInt32.toNat.inj hceq)
      rw [hcc, ih t2 (by simpa using hlen) hteq]

/-! ### Evaluation of the parsing functions over `concrete-prefix ++ tail` -/

theorem splitAtFirst_not_mem (sep : Char) (s : List Char) (h : sep ∉ s) :
    splitAtFirst sep s = (s, none) := by
  induction s with
  | nil => rfl
  | cons c t ih =>
    have hc : c ≠ sep := fun hcc => h (hcc ▸ List.mem_cons_self c t)
    have ht : sep ∉ t := fun hm => h (List.mem_cons_of_mem c hm)
    simp [splitAtFirst, hc, ih ht]

theorem splitAtFirst_append_found (sep : Char) (s t a : List Char) (b : List Char)
    (h : splitAtFirst sep s = (a, some b)) :
    splitAtFirst sep (s ++ t) = (a, some (b ++ t)) := by
  induction s generalizing a with
  | nil => simp [splitAtFirst] at h
  | cons c s' ih =>
    by_cases hc : c = sep
    · simp only [splitAtFirst, if_pos hc] at h
      obtain ⟨h1, h2⟩ := Prod.mk.injEq .. ▸ h
      injection h2 with h2
      simp [splitAtFirst, hc, ← h1, h2]
    · simp only [splitAtFirst, if_neg hc] at h ⊢
      rcases hs : splitAtFirst sep s' with ⟨a', b'⟩
      rw [hs] at h
      obtain ⟨h1, h2⟩ := Prod.mk.injEq .. ▸ h
      cases b' with
      | none => simp at h2
      | some b'' =>
        injection h2 with h2
        simp only [List.append_eq]
        rw [ih a' (by rw [hs, h2])]
        simp [← h1]

theorem findChar_append_left (sep : Char) (s t : List Char) (i : Nat)
    (h : findChar sep s = some i) : findChar sep (s ++ t) = some i := by
  induction s generalizing i with
  | nil => simp [findChar] at h
  | cons c s' ih =>
    by_cases hc : c = sep
    · simp_all [findChar]
    · simp only [findChar, if_neg hc, Option.map_eq_some'] at h
      obtain ⟨j, hj, hij⟩ := h
      simp [findChar, if_neg hc, ih j hj, ← hij]

theorem startsWithL_append (pat s t : List Char) (h : startsWithL pat s = true) :
    startsWithL pat (s ++ t) = true := by
  unfold startsWithL at *
  have hlen : pat.length ≤ s.length := by
    have := congrArg List.length (by simpa using h : s.take pat.length = pat)
    simp at this
    omega
  rw [List.take_append_of_le_length hlen]
  exact h

theorem takeWhile_append_stopped (f : Char → Bool) (s t : List Char)
    (h : s.takeWhile f ≠ s) :
    (s ++ t).takeWhile f = s.takeWhile f ∧ (s ++ t).dropWhile f = s.dropWhile f ++ t := by
  induction s with
  | nil => simp at h
  | cons c s' ih =>
    by_cases hc : f c
    · simp only [List.takeWhile_cons, List.dropWhile_cons, hc, if_true, List.cons_append] at h ⊢
      have h' : s'.takeWhile f ≠ s' := by
        intro he
        exact h (by rw [he])
      obtain ⟨ih1, ih2⟩ := ih h'
      exact ⟨by rw [ih1], ih2⟩
    · simp only [List.cons_append, List.takeWhile_cons, List.dropWhile_cons, hc] at *
      simp

/-- Parsing the parameterized family `http://h/p?q` for a `#`-free query. -/
theorem urlparse_aQuery (q : List Char) (hq : '#' ∉ q) :
    urlparseL (S "http://h/p?" ++ q) = ⟨S "http", S "h", S "/p", [], q, []⟩ := by
  have hfind : findChar ':' (S "http://h/p?" ++ q) = some 4 :=
    findChar_append_left ':' (S "http://h/p?") q 4 (by decide)
  have htake : (S "http://h/p?" ++ q).take 4 = S "http" :=
    List.take_append_of_le_length (by decide)
  have hdrop : (S "http://h/p?" ++ q).drop 5 = S "//h/p?" ++ q :=
    List.drop_append_of_le_length (by decide)
  have hsw : startsWithL (S "//") (S "//h/p?" ++ q) = true :=
    startsWithL_append (S "//") (S "//h/p?") q (by decide)
  have hbody : (S "//h/p?" ++ q).drop 2 = S "h/p?" ++ q :=
    List.drop_append_of_le_length (by decide)
  have hnl := takeWhile_append_stopped
    (fun c => ¬(c = '/' ∨ c = '?' ∨ c = '#')) (S "h/p?") q (by decide)
  have hfrag : splitAtFirst '#' (S "/p?" ++ q) = (S "/p?" ++ q, none) := by
    apply splitAtFirst_not_mem
    intro hm
    rw [List.mem_append] at hm
    rcases hm with hm | hm
    · revert hm
      decide
    · exact hq hm
  have hquery : splitAtFirst '?' (S "/p?" ++ q) = (S "/p", some q) := by
    have := splitAtFirst_append_found '?' (S "/p?") q (S "/p") [] (by decide)
    simpa using this
  unfold urlparseL splitScheme splitNetloc
  rw [hfind]
  dsimp only
  rw [htake]
  rw [if_pos (by exact ⟨by omega, by decide⟩)]
  rw [hdrop, hsw]
  dsimp only [if_true]
  rw [hbody]
  rw [hnl.1, hnl.2]
  have h1 : (S "h/p?").takeWhile (fun c => ¬(c = '/' ∨ c = '?' ∨ c = '#')) = S "h" := by decide
  have h2 : (S "h/p?").dropWhile (fun c => ¬(c = '/' ∨ c = '?' ∨ c = '#')) = S "/p?" := by decide
  rw [h1, h2]
  rw [if_pos rfl]
  dsimp only
  rw [hfrag, hquery]
  have h3 : splitParams (S "/p") = (S "/p", []) := by decide
  rw [h3]
  have hl : lowerStr (S "http") = S "http" := by decide
  simp [hl]

theorem joinPath_ne_self (a b : List Char) (hb : startsWithL (S "/") b = false)
    (hlen : b.length ≠ 0) : joinPath a b ≠ a := by
  unfold joinPath
  rw [hb]
  simp only [Bool.false_eq_true, if_false]
  split
  · intro h
    have hlen2 := congrArg List.length h
    rw [List.length_append] at hlen2
    omega
  · intro h
    have hlen2 := congrArg List.length h
    rw [List.length_append, List.length_cons] at hlen2
    omega

/-- **C8, counterexample.**  The distinctness half of the claim is false in
principle: sha224 maps infinitely many query strings onto finitely many
56-character digests, so by pigeonhole two URLs sharing netloc and path but
differing in query collide on the same cache path. -/
theorem claim_c8_counterexample :
    ¬ (∀ u1 u2 : List Char,
        (urlparseL u1).netloc = (urlparseL u2).netloc →
        (urlparseL u1).path = (urlparseL u2).path →
        (urlparseL u1).query ≠ (urlparseL u2).query →
        cachePathFor u1 ≠ cachePathFor u2) := by
  intro hall
  obtain ⟨x, y, hxy, hfeq⟩ := Finite.exists_ne_map_eq_of_infinite
    (fun n : ℕ => (⟨charListToNat (sha224Hex (List.replicate (n + 1) 'a')),
      by
        have h := charListToNat_lt (sha224Hex (List.replicate (n + 1) 'a'))
        rwa [sha224Hex_length] at h⟩ : Fin (1114112 ^ 56)))
  have hdig : sha224Hex (List.replicate (x + 1) 'a') = sha224Hex (List.replicate (y + 1) 'a') := by
    apply charListToNat_inj _ _ (by rw [sha224Hex_length, sha224Hex_length])
    have := congrArg Fin.val hfeq
    simpa using this
  have hq1 : '#' ∉ List.replicate (x + 1) 'a' := by
    simp [List.mem_replicate]
  have hq2 : '#' ∉ List.replicate (y + 1) 'a' := by
    simp [List.mem_replicate]
  have hp1 := urlparse_aQuery (List.replicate (x + 1) 'a') hq1
  have hp2 := urlparse_aQuery (List.replicate (y + 1) 'a') hq2
  refine hall (aQueryUrl (x + 1)) (aQueryUrl (y + 1)) ?_ ?_ ?_ ?_
  · rw [aQueryUrl, aQueryUrl, hp1, hp2]
  · rw [aQueryUrl, aQueryUrl, hp1, hp2]
  · rw [aQueryUrl, aQueryUrl, hp1, hp2]
    intro he
    have := congrArg List.length he
    simp at this
    exact hxy this
  · unfold cachePathFor
    rw [aQueryUrl, aQueryUrl, hp1, hp2]
    simp only
    rw [if_pos (by simp), if_pos (by simp), hdig]

/-- **C8 (amended).**  The cache path is the deterministic function
`join(netloc, path.strip('/'))`, with `sha224(query)` appended as a further
component when the query is non-empty; two URLs sharing netloc and path but
differing in query map to distinct cache paths *whenever their queries'
sha224 digests differ* (and always when exactly one query is empty) — sha224
collisions, which exist by pigeonhole, are the only exception. -/
theorem claim_c8_amended_cache_path :
    (∀ url : List Char,
      cachePathFor url =
        if (urlparseL url).query ≠ [] then
          joinPath (joinPath (urlparseL url).netloc (stripChar '/' (urlparseL url).path))
            (sha224Hex (urlparseL url).query)
        else joinPath (urlparseL url).netloc (stripChar '/' (urlparseL url).path)) ∧
    (∀ u1 u2 : List Char,
      (urlparseL u1).netloc = (urlparseL u2).netloc →
      (urlparseL u1).path = (urlparseL u2).path →
      (urlparseL u1).query ≠ [] → (urlparseL u2).query ≠ [] →
      sha224Hex (urlparseL u1).query ≠ sha224Hex (urlparseL u2).query →
      cachePathFor u1 ≠ cachePathFor u2) ∧
    (∀ u1 u2 : List Char,
      (urlparseL u1).netloc = (urlparseL u2).netloc →
      (urlparseL u1).path = (urlparseL u2).path →
      (urlparseL u1).query = [] → (urlparseL u2).query ≠ [] →
      cachePathFor u1 ≠ cachePathFor u2) := by
  refine ⟨fun url => rfl, ?_, ?_⟩
  · intro u1 u2 hn hp hq1 hq2 hdig
    unfold cachePathFor
    rw [if_pos hq1, if_pos hq2, hn, hp]
    exact joinPath_inj_right _ _ _
      (startsWith_slash_eq_false _ (sha224Hex_no_slash _))
      (startsWith_slash_eq_false _ (sha224Hex_no_slash _)) hdig
  · intro u1 u2 hn hp hq1 hq2
    unfold cachePathFor
    rw [if_neg (by simp [hq1]), if_pos hq2, hn, hp]
    intro h
    exact joinPath_ne_self _ _
      (startsWith_slash_eq_false _ (sha224Hex_no_slash _))
      (by rw [sha224Hex_length]; omega) h.symm

/-- Witness for C8 (amended): two one-character queries with different
digests yield distinct concrete cache paths. -/
theorem claim_c8_witness :
    cachePathFor (S "http://h/p?a") ≠ cachePathFor (S "http://h/p?b") :=
  claim_c8_amended_cache_path.2.1 (S "http://h/p?a") (S "http://h/p?b")
    (by decide) (by decide) (by decide) (by decide) (by decide)

/-- Witness for C10 (non-file branch): a fresh transfer on an empty cache. -/
theorem claim_c10_witness :
    ((some 5 = some 5 ∨ (some 5 : Option Nat) = none) ∧
     (some 5 = some 5 ↔
       FetchEff.transfer (S "http://h/a.csv") ∈ [FetchEff.transfer (S "http://h/a.csv")]) ∧
     ((some 5 : Option Nat) = none ↔
       ∀ u, FetchEff.transfer u ∉ [FetchEff.transfer (S "http://h/a.csv")])) ∧
    ((S "/tmp/x.csv", (none : Option Nat)).2 = none ∧ ([] : List FetchEff) = []) :=
  ⟨claim_c10_download_time_iff_transfer.1 (S "http://h/a.csv") false 5 TransferOutcome.success
      ⟨[]⟩ (cachePathFor (S "http://h/a.csv")) (some 5)
      (FileSys.add ⟨[]⟩ (cachePathFor (S "http://h/a.csv")))
      [FetchEff.transfer (S "http://h/a.csv")] (by decide),
   claim_c10_download_time_iff_transfer.2 ⟨S "file", S "file:/tmp/x.csv"⟩ false 0
      TransferOutcome.success ⟨[]⟩ ⟨[S "/tmp/x.csv"]⟩ (S "/tmp/x.csv", none) ⟨[]⟩ []
      (by decide) (by decide)⟩

/-! ## C5: the `name.csv.zip` double-extension rule -/

theorem endsWithL_iff_suffix (p s : List Char) : endsWithL p s = true ↔ p <:+ s := by
  constructor
  · intro h
    simp only [endsWithL, Bool.and_eq_true, decide_eq_true_eq] at h
    exact h.1 ▸ List.drop_suffix _ _
  · intro h
    have hd : s.drop (s.length - p.length) = p := by
      obtain ⟨t, rfl⟩ := h
      simp
    have hl : p.length ≤ s.length := h.length_le
    simp [endsWithL, hd, hl]

theorem endsWith_suffix_trans (p q s : List Char) (hp : endsWithL p s = true)
    (hq : endsWithL q s = true) (hlen : p.length ≤ q.length) : endsWithL p q = true := by
  rw [endsWithL_iff_suffix] at *
  have := List.prefix_of_prefix_length_le hp.reverse hq.reverse (by simpa)
  exact List.reverse_prefix.mp this

theorem processFragmentZip_fields (u : UrlData) :
    (processFragmentZip u).resource_file = u.resource_file ∧
    (processFragmentZip u).resource_format = u.resource_format ∧
    (processFragmentZip u).target_format = u.target_format := by
  unfold processFragmentZip
  split <;> exact ⟨rfl, rfl, rfl⟩

theorem zipExtStep_fields (rfile ext : List Char) (u : UrlData) :
    (zipExtStep rfile ext u).resource_file = u.resource_file ∧
    (zipExtStep rfile ext u).resource_format = u.resource_format ∧
    (zipExtStep rfile ext u).target_format = u.target_format := by
  unfold zipExtStep
  split <;> exact ⟨rfl, rfl, rfl⟩

theorem zipExtStep_pos (rfile ext : List Char) (u : UrlData)
    (h : endsWithL ('.' :: ext ++ S ".zip") rfile = true) :
    zipExtStep rfile ext u = { u with target_file := some (replaceAll (S ".zip") [] rfile) } := by
  unfold zipExtStep
  rw [if_pos h]

theorem zipExtStep_neg (rfile ext : List Char) (u : UrlData)
    (h : endsWithL ('.' :: ext ++ S ".zip") rfile = false) :
    zipExtStep rfile ext u = u := by
  unfold zipExtStep
  rw [h]
  simp

theorem processTargetFileZip_fields (u : UrlData) :
    (processTargetFileZip u).resource_file = u.resource_file ∧
    (processTargetFileZip u).resource_format = u.resource_format := by
  unfold processTargetFileZip
  dsimp only
  have h1 := zipExtStep_fields (u.resource_file.getD []) (S "csv") u
  have h2 := zipExtStep_fields (u.resource_file.getD []) (S "xls")
    (zipExtStep (u.resource_file.getD []) (S "csv") u)
  have h3 := zipExtStep_fields (u.resource_file.getD []) (S "xlsx")
    (zipExtStep (u.resource_file.getD []) (S "xls")
      (zipExtStep (u.resource_file.getD []) (S "csv") u))
  split <;> simp only [h3.1, h2.1, h1.1, h3.2.1, h2.2.1, h1.2.1] <;> simp

theorem processTargetFileZip_of_ends (u : UrlData) (ext : List Char)
    (hext : ext = S "csv" ∨ ext = S "xls" ∨ ext = S "xlsx")
    (htfmt : u.target_format = none)
    (hend : endsWithL ('.' :: ext ++ S ".zip") (u.resource_file.getD []) = true) :
    (processTargetFileZip u).target_file
        = some (replaceAll (S ".zip") [] (u.resource_file.getD [])) ∧
    (processTargetFileZip u).target_format
        = file_ext (replaceAll (S ".zip") [] (u.resource_file.getD [])) := by
  have finish : ∀ v : UrlData,
      v.target_file = some (replaceAll (S ".zip") [] (u.resource_file.getD [])) →
      v.target_format = none →
      ((if truthy v.target_file ∧ ¬truthy v.target_format then
          { v with target_format := file_ext (v.target_file.getD []) }
        else v).target_file
          = some (replaceAll (S ".zip") [] (u.resource_file.getD [])) ∧
       (if truthy v.target_file ∧ ¬truthy v.target_format then
          { v with target_format := file_ext (v.target_file.getD []) }
        else v).target_format
          = file_ext (replaceAll (S ".zip") [] (u.resource_file.getD []))) := by
    intro v hvf hvt
    by_cases hne : replaceAll (S ".zip") [] (u.resource_file.getD []) = []
    · rw [if_neg (by simp [truthy, hvf, hne])]
      refine ⟨hvf, ?_⟩
      rw [hvt, hne]
      decide
    · rw [if_pos (by simp [truthy, hvf, hvt, hne])]
      exact ⟨hvf, by simp [hvf]⟩
  rcases hext with h | h | h <;> subst h
  · have hx1 : endsWithL ('.' :: S "xls" ++ S ".zip") (u.resource_file.getD []) = false := by
      by_contra hc
      rw [Bool.not_eq_false] at hc
      have ht := endsWith_suffix_trans ('.' :: S "xls" ++ S ".zip")
        ('.' :: S "csv" ++ S ".zip") (u.resource_file.getD []) hc hend (by decide)
      revert ht
      decide
    have hx2 : endsWithL ('.' :: S "xlsx" ++ S ".zip") (u.resource_file.getD []) = false := by
      by_contra hc
      rw [Bool.not_eq_false] at hc
      have ht := endsWith_suffix_trans ('.' :: S "csv" ++ S ".zip")
        ('.' :: S "xlsx" ++ S ".zip") (u.resource_file.getD []) hend hc (by decide)
      revert ht
      decide
    unfold processTargetFileZip
    dsimp only
    rw [zipExtStep_pos _ _ _ hend, zipExtStep_neg _ _ _ hx1, zipExtStep_neg _ _ _ hx2]
    exact finish _ rfl htfmt
  · have hx1 : endsWithL ('.' :: S "csv" ++ S ".zip") (u.resource_file.getD []) = false := by
      by_contra hc
      rw [Bool.not_eq_false] at hc
      have ht := endsWith_suffix_trans ('.' :: S "csv" ++ S ".zip")
        ('.' :: S "xls" ++ S ".zip") (u.resource_file.getD []) hc hend (by decide)
      revert ht
      decide
    have hx2 : endsWithL ('.' :: S "xlsx" ++ S ".zip") (u.resource_file.getD []) = false := by
      by_contra hc
      rw [Bool.not_eq_false] at hc
      have ht := endsWith_suffix_trans ('.' :: S "xls" ++ S ".zip")
        ('.' :: S "xlsx" ++ S ".zip") (u.resource_file.getD []) hend hc (by decide)
      revert ht
      decide
    unfold processTargetFileZip
    dsimp only
    rw [zipExtStep_neg _ _ _ hx1, zipExtStep_pos _ _ _ hend, zipExtStep_neg _ _ _ hx2]
    exact finish _ rfl htfmt
  · have hx1 : endsWithL ('.' :: S "csv" ++ S ".zip") (u.resource_file.getD []) = false := by
      by_contra hc
      rw [Bool.not_eq_false] at hc
      have ht := endsWith_suffix_trans ('.' :: S "csv" ++ S ".zip")
        ('.' :: S "xlsx" ++ S ".zip") (u.resource_file.getD []) hc hend (by decide)
      revert ht
      decide
    have hx2 : endsWithL ('.' :: S "xls" ++ S ".zip") (u.resource_file.getD []) = false := by
      by_contra hc
      rw [Bool.not_eq_false] at hc
      have ht := endsWith_suffix_trans ('.' :: S "xls" ++ S ".zip")
        ('.' :: S "xlsx" ++ S ".zip") (u.resource_file.getD []) hc hend (by decide)
      revert ht
      decide
    unfold processTargetFileZip
    dsimp only
    rw [zipExtStep_neg _ _ _ hx1, zipExtStep_neg _ _ _ hx2, zipExtStep_pos _ _ _ hend]
    exact finish _ rfl htfmt

/-- **C5 (amended).**  A locator that the Zip handler claims and whose derived
resource file name ends in `.csv.zip` / `.xls.zip` / `.xlsx.zip` resolves to
`resource_format = "zip"`, `target_file` equal to the resource file name with
*every* occurrence of `".zip"` removed (Python `str.replace`; this equals the
name with only the final `.zip` stripped whenever `".zip"` occurs nowhere
else), and `target_format` equal to the extension of that `target_file`
(the inner extension) — fragment or no fragment. -/
theorem claim_c5_zip_double_extension :
    ∀ (url : List Char) (u : UrlData) (ext : List Char),
      get_handler url {} = Except.ok Handler.zip →
      mkUrl url {} = Except.ok u →
      (ext = S "csv" ∨ ext = S "xls" ∨ ext = S "xlsx") →
      endsWithL ('.' :: ext ++ S ".zip") (u.resource_file.getD []) = true →
      u.resource_format = some (S "zip") ∧
      u.target_file = some (replaceAll (S ".zip") [] (u.resource_file.getD [])) ∧
      u.target_format = file_ext (replaceAll (S ".zip") [] (u.resource_file.getD [])) := by
  intro url u ext hh hmk hext hend
  unfold mkUrl at hmk
  rw [hh, bindE_ok] at hmk
  simp only [applyInitKwargs] at hmk
  rcases hex : extractParts Handler.zip url
      { resource_format := some (S "zip") } with e | ⟨ustr, parts⟩ <;>
    rw [hex] at hmk
  · rw [bindE_error] at hmk
    cases hmk
  rw [bindE_ok] at hmk
  unfold processAll at hmk
  simp only [assignArgs, processProto, truthy] at hmk
  simp only [Bool.false_eq_true, if_false] at hmk
  rcases hep : extract_proto ustr with e | proto <;> rw [hep] at hmk
  · rw [bindE_error] at hmk
    cases hmk
  rw [bindE_ok, bindE_ok] at hmk
  simp only [processResourceUrl, processResourceUrlBase] at hmk
  rcases hrp : reparse_url
      (unparse_url_dict parts.dict
        { scheme := some (some (if parts.dict.scheme ≠ [] then parts.dict.scheme else S "file")),
          scheme_extension := some none, fragment := some none })
      { query := some none } with e | rf0 <;> rw [hrp] at hmk
  · rw [bindE_error] at hmk
    cases hmk
  rw [bindE_ok] at hmk
  rw [if_neg (by decide)] at hmk
  rw [bindE_ok] at hmk
  simp only [processFragment, processTargetFile] at hmk
  injection hmk with hmk
  subst hmk
  set u2 : UrlData :=
    { handler := Handler.zip, url := ustr, parts := parts, scheme := (none : Option (List Char)).getD parts.dict.scheme,
      proto := some proto,
      resource_url :=
        some (unparse_url_dict parts.dict
          { scheme := some (some (if parts.dict.scheme ≠ [] then parts.dict.scheme else S "file")),
            scheme_extension := some none, fragment := some none, query := none, path := none }),
      resource_file := some (basenameL rf0), resource_format := some (S "zip"),
      target_file := none, target_format := none, encoding := none,
      target_segment := none } with hu2
  have hfz := processFragmentZip_fields u2
  have hpz := processTargetFileZip_fields (processFragmentZip u2)
  have hrfile : (processFragmentZip u2).resource_file = some (basenameL rf0) := hfz.1
  have hrfmt : (processFragmentZip u2).resource_format = some (S "zip") := hfz.2.1
  have htfmt : (processFragmentZip u2).target_format = none := hfz.2.2
  have hresu : (processTargetFileZip (processFragmentZip u2)).resource_file
      = some (basenameL rf0) := by rw [hpz.1, hrfile]
  have hend2 : endsWithL ('.' :: ext ++ S ".zip")
      ((processFragmentZip u2).resource_file.getD []) = true := by
    rw [hrfile]
    rw [hresu] at hend
    exact hend
  have hmain := processTargetFileZip_of_ends (processFragmentZip u2) ext hext htfmt hend2
  refine ⟨by rw [hpz.2, hrfmt], ?_, ?_⟩
  · rw [hmain.1, hresu, hrfile]
  · rw [hmain.2, hresu, hrfile]

/-- Witness for C5 (amended) at the spec's own example
`http://ex.com/data.csv.zip`. -/
theorem claim_c5_witness :
    ((mkUrl (S "http://ex.com/data.csv.zip") {}).map
      (fun u => (u.resource_format, u.target_file, u.target_format)))
      = Except.ok (some (S "zip"), some (S "data.csv"), some (S "csv")) := by
  rcases hmk : mkUrl (S "http://ex.com/data.csv.zip") {} with e | u
  · have hok : (mkUrl (S "http://ex.com/data.csv.zip") {}).isOk = true := by decide
    rw [hmk] at hok
    simp [Except.isOk, Except.toBool] at hok
  · have hrf : u.resource_file = some (S "data.csv.zip") := by
      have hmap : Except.map (fun v : UrlData => v.resource_file)
          (mkUrl (S "http://ex.com/data.csv.zip") {})
          = Except.ok (some (S "data.csv.zip")) := by decide
      rw [hmk] at hmap
      simp only [Except.map, Except.ok.injEq] at hmap
      exact hmap
    have h := claim_c5_zip_double_extension (S "http://ex.com/data.csv.zip") u (S "csv")
      (by decide) hmk (Or.inl rfl) (by rw [hrf]; decide)
    simp only [Except.map, Except.ok.injEq]
    rw [h.1, h.2.1, h.2.2, hrf]
    decide

/-! ## C4: `update` and derived-field recomputation -/

theorem lowerStr_ne_nil (f : List Char) (h : f ≠ []) : lowerStr f ≠ [] := by
  cases f with
  | nil => exact absurd rfl h
  | cons c t => simp [lowerStr]

theorem processProto_preserves (u u' : UrlData) (h : processProto u = Except.ok u') :
    u'.target_format = u.target_format ∧ u'.resource_format = u.resource_format ∧
    u'.handler = u.handler ∧ u'.parts = u.parts ∧ u'.resource_file = u.resource_file ∧
    u'.target_file = u.target_file ∧ u'.url = u.url := by
  unfold processProto at h
  split at h
  · injection h with h
    subst h
    exact ⟨rfl, rfl, rfl, rfl, rfl, rfl, rfl⟩
  · rcases hep : extract_proto u.url with e | p <;> rw [hep] at h
    · rw [bindE_error] at h
      cases h
    · rw [bindE_ok] at h
      injection h with h
      subst h
      exact ⟨rfl, rfl, rfl, rfl, rfl, rfl, rfl⟩

theorem processResourceUrl_preserves_target_format (h : Handler) (u u' : UrlData)
    (hh : h ≠ Handler.metatab) (hr : processResourceUrl h u = Except.ok u') :
    u'.target_format = u.target_format ∧ u'.handler = u.handler := by
  cases h
  case metatab => exact absurd rfl hh
  case google =>
    simp only [processResourceUrl] at hr
    injection hr with hr
    subst hr
    unfold processResourceUrlGoogle processFragmentBase
    repeat' first
      | split
      | dsimp only
    all_goals first
      | exact ⟨rfl, rfl⟩
      | simp
  case socrata =>
    simp only [processResourceUrl] at hr
    injection hr with hr
    subst hr
    unfold processResourceUrlSocrata
    repeat' first
      | split
      | dsimp only
    all_goals first
      | exact ⟨rfl, rfl⟩
      | simp
  case s3 =>
    simp only [processResourceUrl] at hr
    injection hr with hr
    subst hr
    unfold processResourceUrlS3
    repeat' first
      | split
      | dsimp only
    all_goals first
      | exact ⟨rfl, rfl⟩
      | simp
  case program =>
    simp only [processResourceUrl] at hr
    injection hr with hr
    subst hr
    unfold processResourceUrlProgram
    repeat' first
      | split
      | dsimp only
    all_goals first
      | exact ⟨rfl, rfl⟩
      | simp
  case noteboot =>
    simp only [processResourceUrl] at hr
    injection hr with hr
    subst hr
    unfold processResourceUrlNoteboot
    repeat' first
      | split
      | dsimp only
    all_goals first
      | exact ⟨rfl, rfl⟩
      | simp
  all_goals {
    simp only [processResourceUrl, processResourceUrlBase] at hr
    rcases hrp : reparse_url _ _ with e | rf0 <;> rw [hrp] at hr
    · rw [bindE_error] at hr
      cases hr
    · rw [bindE_ok] at hr
      split at hr <;> (injection hr with hr; subst hr; exact ⟨rfl, rfl⟩)
  }

theorem processFragment_preserves_target_format (h : Handler) (u : UrlData) :
    (processFragment h u).target_format = u.target_format ∧
    (processFragment h u).handler = u.handler := by
  cases h <;> simp only [processFragment]
  case zip =>
    unfold processFragmentZip
    split <;> exact ⟨rfl, rfl⟩
  case metatab => refine ⟨?_, ?_⟩ <;> first | rfl | trivial | simp
  case noteboot => refine ⟨?_, ?_⟩ <;> first | rfl | trivial | simp
  all_goals {
    unfold processFragmentBase
    repeat' first
      | split
      | dsimp only
    all_goals first
      | exact ⟨rfl, rfl⟩
      | simp
  }

theorem processTargetFile_preserves_truthy_target_format (h : Handler) (u u' : UrlData)
    (ht : truthy u.target_format = true)
    (hr : processTargetFile h u = Except.ok u') :
    u'.target_format = u.target_format ∧ u'.handler = u.handler := by
  have hbase : ∀ v v' : UrlData, truthy v.target_format = true →
      processTargetFileBase v = Except.ok v' →
      v'.target_format = v.target_format ∧ v'.handler = v.handler := by
    intro v v' hvt hb
    simp only [processTargetFileBase] at hb
    by_cases h1 : truthy v.target_file = true
    · rw [if_neg (by simp [h1]), bindE_ok] at hb
      simp only [hvt, not_true, ite_false, if_false] at hb
      injection hb with hb
      subst hb
      exact ⟨rfl, rfl⟩
    · rw [if_pos (by simp [h1])] at hb
      rcases hq : reparse_url (v.resource_url.getD []) { query := some none } with e | s <;>
        rw [hq] at hb
      · simp only [bindE_error] at hb
        cases hb
      · simp only [bindE_ok] at hb
        simp only [hvt, not_true, ite_false, if_false] at hb
        injection hb with hb
        subst hb
        exact ⟨rfl, rfl⟩
  cases h
  case zip =>
    simp only [processTargetFile] at hr
    injection hr with hr
    subst hr
    unfold processTargetFileZip
    dsimp only
    have hf := zipExtStep_fields (u.resource_file.getD []) (S "csv") u
    have hf2 := zipExtStep_fields (u.resource_file.getD []) (S "xls")
      (zipExtStep (u.resource_file.getD []) (S "csv") u)
    have hf3 := zipExtStep_fields (u.resource_file.getD []) (S "xlsx")
      (zipExtStep (u.resource_file.getD []) (S "xls")
        (zipExtStep (u.resource_file.getD []) (S "csv") u))
    rw [if_neg (by
      simp only [hf3.2.2, hf2.2.2, hf.2.2]
      simp [ht])]
    simp only [hf3.2.2, hf2.2.2, hf.2.2]
    refine ⟨by first | rfl | trivial, ?_⟩
    unfold zipExtStep
    split <;> split <;> split <;> rfl
  case noteboot =>
    simp only [processTargetFile] at hr
    rcases hb : processTargetFileBase u with e | v <;> rw [hb] at hr
    · rw [bindE_error] at hr
      cases hr
    · rw [bindE_ok] at hr
      split at hr
      · injection hr with hr
        subst hr
        first
          | exact hbase u v ht hb
          | exact hbase u u' ht hb
      · cases hr
  all_goals {
    simp only [processTargetFile] at hr
    exact hbase u u' ht hr
  }

theorem applyInitKwargs_target_format (h : Handler) (kw : Kwargs) :
    (applyInitKwargs h kw).target_format = kw.target_format := by
  cases h <;> rfl

theorem processResourceUrlMetatab_fields (u : UrlData) :
    (processResourceUrlMetatab u).target_format = some (S "metatab") ∧
    (processResourceUrlMetatab u).handler = u.handler := by
  unfold processResourceUrlMetatab
  repeat' first
    | split
    | dsimp only
  all_goals first
    | exact ⟨rfl, rfl⟩
    | simp

theorem processResourceUrl_handler (h : Handler) (u u' : UrlData)
    (hr : processResourceUrl h u = Except.ok u') : u'.handler = u.handler := by
  by_cases hm : h = Handler.metatab
  · subst hm
    simp only [processResourceUrl] at hr
    injection hr with hr
    subst hr
    exact (processResourceUrlMetatab_fields u).2
  · exact (processResourceUrl_preserves_target_format h u u' hm hr).2

/-- Through the whole `Url.__init__` pipeline a nonempty `target_format`
keyword survives (lower-cased by `_assign_args`), except that
`MetatabPackageUrl._process_resource_url` overwrites it with `"metatab"`. -/
theorem mkUrl_target_format (url0 : List Char) (kw : Kwargs) (f : List Char) (o : UrlData)
    (hf : kw.target_format = some f) (hne : f ≠ [])
    (hmk : mkUrl url0 kw = Except.ok o) :
    o.target_format =
      (if o.handler = Handler.metatab then some (S "metatab") else some (lowerStr f)) := by
  simp only [mkUrl] at hmk
  rcases hg : get_handler url0 kw with e | h <;> rw [hg] at hmk
  · rw [bindE_error] at hmk
    cases hmk
  rw [bindE_ok] at hmk
  rcases hep : extractParts h url0 (applyInitKwargs h kw) with e | p <;> rw [hep] at hmk
  · rw [bindE_error] at hmk
    cases hmk
  rw [bindE_ok] at hmk
  obtain ⟨u1, parts1⟩ := p
  dsimp only at hmk
  simp only [processAll] at hmk
  have ha0tf : (assignArgs h u1 parts1 (applyInitKwargs h kw)).target_format
      = some (lowerStr f) := by
    simp only [assignArgs, applyInitKwargs_target_format, hf]
    simp [hne]
  have ha0h : (assignArgs h u1 parts1 (applyInitKwargs h kw)).handler = h := rfl
  rcases hp : processProto (assignArgs h u1 parts1 (applyInitKwargs h kw)) with e | a1 <;>
    rw [hp] at hmk
  · rw [bindE_error] at hmk
    cases hmk
  rw [bindE_ok] at hmk
  have h1 := processProto_preserves _ a1 hp
  have ha1tf : a1.target_format = some (lowerStr f) := by rw [h1.1, ha0tf]
  have ha1h : a1.handler = h := by rw [h1.2.2.1, ha0h]
  rcases hr : processResourceUrl h a1 with e | a2 <;> rw [hr] at hmk
  · rw [bindE_error] at hmk
    cases hmk
  rw [bindE_ok] at hmk
  have hfr := processFragment_preserves_target_format h a2
  by_cases hm : h = Handler.metatab
  · subst hm
    simp only [processResourceUrl] at hr
    injection hr with hr
    subst hr
    have hm2 := processResourceUrlMetatab_fields a1
    have ht2 : truthy (processFragment Handler.metatab
        (processResourceUrlMetatab a1)).target_format = true := by
      rw [hfr.1, hm2.1]
      decide
    have hfin := processTargetFile_preserves_truthy_target_format Handler.metatab _ o ht2 hmk
    have hoh : o.handler = Handler.metatab := by
      rw [hfin.2, hfr.2, hm2.2, ha1h]
    rw [if_pos hoh, hfin.1, hfr.1, hm2.1]
  · have h2 := processResourceUrl_preserves_target_format h a1 a2 hm hr
    have ht2 : truthy (processFragment h a2).target_format = true := by
      rw [hfr.1, h2.1, ha1tf]
      simp [truthy, lowerStr_ne_nil f hne]
    have hfin := processTargetFile_preserves_truthy_target_format h _ o ht2 hmk
    have hoh : o.handler = h := by
      rw [hfin.2, hfr.2, h2.2, ha1h]
    rw [if_neg (by rw [hoh]; exact hm), hfin.1, hfr.1, h2.1, ha1tf]

theorem bindE_ok_inv {α β : Type} {m : Except PyErr α} {g : α → Except PyErr β} {b : β}
    (h : m >>= g = Except.ok b) : ∃ a, m = Except.ok a ∧ g a = Except.ok b := by
  cases m with
  | error e => rw [bindE_error] at h; cases h
  | ok a => exact ⟨a, rfl, h⟩

/-- C4 (corrected): `update` with a `target_file` override does NOT recompute
`target_format` from the new file's extension (see the counterexample); instead,
because `update` passes `target_format=self.target_format` to the new `Url`,
a nonempty existing `target_format` is retained verbatim (lower-cased by
`_assign_args`) whenever the resulting object is not a Metatab url. -/
theorem claim_c4_update_retains_target_format (u u' : UrlData) (tf f : List Char)
    (hf : u.target_format = some f) (hne : f ≠ [])
    (hu : update u { target_file := some tf } = Except.ok u')
    (hh : u'.handler ≠ Handler.metatab) :
    u'.target_format = some (lowerStr f) := by
  simp only [update] at hu
  obtain ⟨newUrl, hn, hu⟩ := bindE_ok_inv hu
  obtain ⟨o0, hmk, hu⟩ := bindE_ok_inv hu
  obtain ⟨o1, hr1, hu⟩ := bindE_ok_inv hu
  have ho0 := mkUrl_target_format newUrl _ f o0 (by exact hf) hne hmk
  have hfr := processFragment_preserves_target_format o1.handler o1
  by_cases hm : o0.handler = Handler.metatab
  · rw [hm] at hr1
    simp only [processResourceUrl] at hr1
    injection hr1 with hr1
    subst hr1
    have hm2 := processResourceUrlMetatab_fields o0
    have ht2 : truthy (processFragment (processResourceUrlMetatab o0).handler
        (processResourceUrlMetatab o0)).target_format = true := by
      rw [hfr.1, hm2.1]
      decide
    have hfin := processTargetFile_preserves_truthy_target_format _ _ u' ht2 hu
    exact absurd (by rw [hfin.2, hfr.2, hm2.2, hm]) hh
  · have h2 := processResourceUrl_preserves_target_format o0.handler o0 o1 hm hr1
    have ht2 : truthy (processFragment o1.handler o1).target_format = true := by
      rw [hfr.1, h2.1, ho0, if_neg hm]
      simp [truthy, lowerStr_ne_nil f hne]
    have hfin := processTargetFile_preserves_truthy_target_format _ _ u' ht2 hu
    rw [hfin.1, hfr.1, h2.1, ho0, if_neg hm]

/-- C4 witness: `http://ex.com/a.csv` parses with `target_format = "csv"`;
updating `target_file` to `b.xlsx` keeps `target_format = "csv"`. -/
theorem claim_c4_witness : ∃ u u' : UrlData,
    mkUrl (S "http://ex.com/a.csv") {} = Except.ok u ∧
    u.target_format = some (S "csv") ∧
    update u { target_file := some (S "b.xlsx") } = Except.ok u' ∧
    u'.target_format = some (S "csv") := by
  rcases hmk : mkUrl (S "http://ex.com/a.csv") {} with e | u
  · have hok : (mkUrl (S "http://ex.com/a.csv") {}).isOk = true := by decide
    rw [hmk] at hok
    simp [Except.isOk, Except.toBool] at hok
  have htf : Except.map (fun v => v.target_format) (mkUrl (S "http://ex.com/a.csv") {})
      = Except.ok (some (S "csv")) := by decide
  rw [hmk] at htf
  simp only [Except.map, Except.ok.injEq] at htf
  rcases hup : update u { target_file := some (S "b.xlsx") } with e | u'
  · have hok2 : ((mkUrl (S "http://ex.com/a.csv") {}) >>=
        fun v => update v { target_file := some (S "b.xlsx") }).isOk = true := by decide
    rw [hmk, bindE_ok, hup] at hok2
    simp [Except.isOk, Except.toBool] at hok2
  have hh : Except.map (fun v => v.handler) ((mkUrl (S "http://ex.com/a.csv") {}) >>=
      fun v => update v { target_file := some (S "b.xlsx") })
      = Except.ok Handler.general := by decide
  rw [hmk, bindE_ok, hup] at hh
  simp only [Except.map, Except.ok.injEq] at hh
  have hres := claim_c4_update_retains_target_format u u' (S "b.xlsx") (S "csv") htf
    (by decide) hup (by rw [hh]; decide)
  exact ⟨u, u', rfl, htf, hup, by rw [hres]; decide⟩

theorem extract_proto_ok (url : List Char) (d : UrlDict)
    (hp : parse_url_to_dict url = Except.ok d) :
    ∃ pr, extract_proto url = Except.ok pr := by
  unfold extract_proto
  rw [hp, bindE_ok]
  repeat' first
    | split
    | dsimp only
  all_goals exact ⟨_, rfl⟩

theorem matchHandler_total (url : List Char) (kw : Kwargs) (d : UrlDict)
    (hp : parse_url_to_dict url = Except.ok d) :
    ∀ h : Handler, ∃ b, matchHandler h url kw = Except.ok b := by
  obtain ⟨pr, hpr⟩ := extract_proto_ok url d hp
  intro h
  cases h <;> simp only [matchHandler] <;>
    first
      | exact ⟨_, rfl⟩
      | (rw [hpr, bindE_ok]; exact ⟨_, rfl⟩)
      | (rw [hp, bindE_ok]; exact ⟨_, rfl⟩)

theorem get_handler_aux_spec (url : List Char) (kw : Kwargs)
    (htot : ∀ h : Handler, ∃ b, matchHandler h url kw = Except.ok b) :
    ∀ L : List Handler,
    ∃ h l1 l2, get_handler_aux (L ++ [Handler.general]) url kw = Except.ok h ∧
      L ++ [Handler.general] = l1 ++ h :: l2 ∧
      matchHandler h url kw = Except.ok true ∧
      ∀ h2 ∈ l1, matchHandler h2 url kw = Except.ok false := by
  intro L
  induction L with
  | nil =>
    refine ⟨Handler.general, [], [], ?_, rfl, rfl, by simp⟩
    simp only [List.nil_append, get_handler_aux]
    rfl
  | cons h0 t ih =>
    obtain ⟨b, hb⟩ := htot h0
    obtain ⟨h, l1, l2, haux, hsplit, htrue, hfalse⟩ := ih
    cases b with
    | true =>
      refine ⟨h0, [], t ++ [Handler.general], ?_, rfl, hb, by simp⟩
      simp only [List.cons_append, get_handler_aux]
      rw [hb, bindE_ok]
      rfl
    | false =>
      refine ⟨h, h0 :: l1, l2, ?_, by rw [List.cons_append, hsplit]; rfl, htrue, ?_⟩
      · simp only [List.cons_append, get_handler_aux]
        rw [hb, bindE_ok]
        exact haux
      · intro h2 hmem
        rcases List.mem_cons.mp hmem with h2eq | h2mem
        · rw [h2eq]; exact hb
        · exact hfalse h2 h2mem

/-- C1 (corrected): *provided the locator string parses*
(`parse_url_to_dict` succeeds — it raises `ValueError` on schemes with two or
more `+`, see the counterexample), classification selects exactly one variant
by first-match-wins over `url_handlers`: the chosen handler matches, every
handler strictly before it does not, the `GeneralUrl` variant matches every
input, and it is last in the list. -/
theorem claim_c1_classification_first_match (url : List Char) (kw : Kwargs) (d : UrlDict)
    (hp : parse_url_to_dict url = Except.ok d) :
    (∃ h l1 l2, get_handler url kw = Except.ok h ∧
        url_handlers = l1 ++ h :: l2 ∧
        matchHandler h url kw = Except.ok true ∧
        ∀ h2 ∈ l1, matchHandler h2 url kw = Except.ok false) ∧
    matchHandler Handler.general url kw = Except.ok true ∧
    url_handlers.getLast? = some Handler.general := by
  refine ⟨?_, rfl, by decide⟩
  obtain ⟨h, l1, l2, haux, hsplit, htrue, hfalse⟩ :=
    get_handler_aux_spec url kw (matchHandler_total url kw d hp)
      [Handler.noteboot, Handler.program, Handler.metatab, Handler.ckan, Handler.socrata,
       Handler.google, Handler.zip, Handler.excel, Handler.s3, Handler.application]
  exact ⟨h, l1, l2, haux, hsplit, htrue, hfalse⟩

/-- C1 witness: `http://ex.com/a.zip` parses, the first-match property holds,
and the selected handler is `ZipUrl`. -/
theorem claim_c1_witness :
    (∃ d, parse_url_to_dict (S "http://ex.com/a.zip") = Except.ok d) ∧
    ((∃ h l1 l2, get_handler (S "http://ex.com/a.zip") {} = Except.ok h ∧
        url_handlers = l1 ++ h :: l2 ∧
        matchHandler h (S "http://ex.com/a.zip") {} = Except.ok true ∧
        ∀ h2 ∈ l1, matchHandler h2 (S "http://ex.com/a.zip") {} = Except.ok false) ∧
      matchHandler Handler.general (S "http://ex.com/a.zip") {} = Except.ok true ∧
      url_handlers.getLast? = some Handler.general) ∧
    get_handler (S "http://ex.com/a.zip") {} = Except.ok Handler.zip := by
  rcases hpd : parse_url_to_dict (S "http://ex.com/a.zip") with e | d
  · have hok : (parse_url_to_dict (S "http://ex.com/a.zip")).isOk = true := by decide
    rw [hpd] at hok
    simp [Except.isOk, Except.toBool] at hok
  exact ⟨⟨d, rfl⟩, claim_c1_classification_first_match (S "http://ex.com/a.zip") {} d hpd,
    by decide⟩

theorem isAsciiUpper_iff_toNat (c : Char) :
    isAsciiUpper c = true ↔ 65 ≤ c.toNat ∧ c.toNat ≤ 90 := by
  simp only [isAsciiUpper, Char.le_def, decide_eq_true_eq]
  constructor <;> intro h <;> exact h

theorem asciiLower_not_upper (c : Char) : isAsciiUpper (asciiLower c) = false := by
  by_cases h : isAsciiUpper c = true
  · unfold asciiLower
    rw [if_pos h]
    have hc := (isAsciiUpper_iff_toNat c).mp h
    have hv : Nat.isValidChar (c.toNat + 32) := Or.inl (by omega)
    have ht : (Char.ofNat (c.toNat + 32)).toNat = c.toNat + 32 := by
      unfold Char.ofNat
      rw [dif_pos hv]
      rfl
    rw [Bool.eq_false_iff]
    intro habs
    have h2 := (isAsciiUpper_iff_toNat _).mp habs
    rw [ht] at h2
    omega
  · unfold asciiLower
    rw [if_neg h]
    exact Bool.not_eq_true _ |>.mp h

theorem lowercaseOrNone_lowerStr (t : List Char) :
    lowercaseOrNone (some (lowerStr t)) = true := by
  simp only [lowercaseOrNone, lowerStr, List.all_map, List.all_eq_true]
  intro c hc
  simp [Function.comp, asciiLower_not_upper]

theorem file_ext_lower (v : List Char) : lowercaseOrNone (file_ext v) = true := by
  unfold file_ext
  repeat' first
    | split
    | dsimp only
  all_goals first
    | rfl
    | exact lowercaseOrNone_lowerStr _

theorem assignArgs_lower (h : Handler) (u : List Char) (parts : BunchParts) (kw : Kwargs)
    (hrf : lowercaseOrNone kw.resource_format = true) :
    lowercaseOrNone (assignArgs h u parts kw).resource_format = true ∧
    lowercaseOrNone (assignArgs h u parts kw).target_format = true := by
  refine ⟨hrf, ?_⟩
  simp only [assignArgs]
  rcases kw.target_format with _ | t
  · rfl
  · dsimp only
    split
    · exact lowercaseOrNone_lowerStr t
    · have ht : t = [] := by
        rename_i hcond
        simpa using hcond
      subst ht
      rfl

theorem applyInitKwargs_resource_format_lower (h : Handler) (kw : Kwargs)
    (hrf : lowercaseOrNone kw.resource_format = true) :
    lowercaseOrNone (applyInitKwargs h kw).resource_format = true := by
  cases h <;>
    first
      | exact hrf
      | exact (by decide : lowercaseOrNone (some (S "csv")) = true)
      | exact (by decide : lowercaseOrNone (some (S "zip")) = true)

theorem processFragmentBase_formats (u : UrlData) :
    (processFragmentBase u).resource_format = u.resource_format ∧
    (processFragmentBase u).target_format = u.target_format := by
  unfold processFragmentBase
  repeat' first
    | split
    | dsimp only
  all_goals first
    | exact ⟨rfl, rfl⟩
    | simp

theorem processResourceUrlGoogle_lower (u : UrlData)
    (h1 : lowercaseOrNone u.resource_format = true)
    (h2 : lowercaseOrNone u.target_format = true) :
    lowercaseOrNone (processResourceUrlGoogle u).resource_format = true ∧
    lowercaseOrNone (processResourceUrlGoogle u).target_format = true := by
  have hb := processFragmentBase_formats u
  unfold processResourceUrlGoogle
  repeat' first
    | split
    | dsimp only
  all_goals first
    | exact ⟨by rw [hb.1]; exact h1, by rw [hb.2]; exact h2⟩
    | exact ⟨file_ext_lower _, by rw [hb.2]; exact h2⟩
    | simp [hb.1, hb.2, h1, h2, file_ext_lower]

theorem processResourceUrlSocrata_lower (u : UrlData)
    (h1 : lowercaseOrNone u.resource_format = true)
    (h2 : lowercaseOrNone u.target_format = true) :
    lowercaseOrNone (processResourceUrlSocrata u).resource_format = true ∧
    lowercaseOrNone (processResourceUrlSocrata u).target_format = true := by
  unfold processResourceUrlSocrata
  repeat' first
    | split
    | dsimp only
  all_goals first
    | exact ⟨h1, h2⟩
    | exact ⟨file_ext_lower _, h2⟩
    | simp [h1, h2, file_ext_lower]

theorem processResourceUrlS3_lower (u : UrlData)
    (h1 : lowercaseOrNone u.resource_format = true)
    (h2 : lowercaseOrNone u.target_format = true) :
    lowercaseOrNone (processResourceUrlS3 u).resource_format = true ∧
    lowercaseOrNone (processResourceUrlS3 u).target_format = true := by
  unfold processResourceUrlS3
  repeat' first
    | split
    | dsimp only
  all_goals first
    | exact ⟨h1, h2⟩
    | exact ⟨file_ext_lower _, h2⟩
    | simp [h1, h2, file_ext_lower]

theorem processResourceUrlProgram_lower (u : UrlData)
    (h1 : lowercaseOrNone u.resource_format = true)
    (h2 : lowercaseOrNone u.target_format = true) :
    lowercaseOrNone (processResourceUrlProgram u).resource_format = true ∧
    lowercaseOrNone (processResourceUrlProgram u).target_format = true := by
  unfold processResourceUrlProgram
  repeat' first
    | split
    | dsimp only
  all_goals first
    | exact ⟨h1, h2⟩
    | exact ⟨file_ext_lower _, h2⟩
    | simp [h1, h2, file_ext_lower]

theorem processResourceUrlNoteboot_lower (u : UrlData)
    (h1 : lowercaseOrNone u.resource_format = true)
    (h2 : lowercaseOrNone u.target_format = true) :
    lowercaseOrNone (processResourceUrlNoteboot u).resource_format = true ∧
    lowercaseOrNone (processResourceUrlNoteboot u).target_format = true := by
  unfold processResourceUrlNoteboot
  repeat' first
    | split
    | dsimp only
  all_goals refine ⟨?_, ?_⟩ <;>
    first
      | exact file_ext_lower _
      | exact h1
      | exact h2

theorem processResourceUrlMetatab_lower (u : UrlData) :
    lowercaseOrNone (processResourceUrlMetatab u).resource_format = true ∧
    lowercaseOrNone (processResourceUrlMetatab u).target_format = true := by
  unfold processResourceUrlMetatab
  repeat' first
    | split
    | dsimp only
  all_goals first
    | exact ⟨file_ext_lower _,
        (by decide : lowercaseOrNone (some (S "metatab")) = true)⟩
    | exact ⟨(by decide : lowercaseOrNone (some (S "csv")) = true),
        (by decide : lowercaseOrNone (some (S "metatab")) = true)⟩
    | simp [file_ext_lower]

theorem processResourceUrl_lower (h : Handler) (u u' : UrlData)
    (h1 : lowercaseOrNone u.resource_format = true)
    (h2 : lowercaseOrNone u.target_format = true)
    (hr : processResourceUrl h u = Except.ok u') :
    lowercaseOrNone u'.resource_format = true ∧ lowercaseOrNone u'.target_format = true := by
  cases h
  case google =>
    simp only [processResourceUrl] at hr
    injection hr with hr
    subst hr
    exact processResourceUrlGoogle_lower u h1 h2
  case socrata =>
    simp only [processResourceUrl] at hr
    injection hr with hr
    subst hr
    exact processResourceUrlSocrata_lower u h1 h2
  case s3 =>
    simp only [processResourceUrl] at hr
    injection hr with hr
    subst hr
    exact processResourceUrlS3_lower u h1 h2
  case metatab =>
    simp only [processResourceUrl] at hr
    injection hr with hr
    subst hr
    exact processResourceUrlMetatab_lower u
  case program =>
    simp only [processResourceUrl] at hr
    injection hr with hr
    subst hr
    exact processResourceUrlProgram_lower u h1 h2
  case noteboot =>
    simp only [processResourceUrl] at hr
    injection hr with hr
    subst hr
    exact processResourceUrlNoteboot_lower u h1 h2
  all_goals {
    simp only [processResourceUrl, processResourceUrlBase] at hr
    rcases hrp : reparse_url _ _ with e | rf0 <;> rw [hrp] at hr
    · rw [bindE_error] at hr
      cases hr
    · rw [bindE_ok] at hr
      split at hr <;> (injection hr with hr; subst hr) <;>
        first
          | exact ⟨h1, h2⟩
          | exact ⟨file_ext_lower _, h2⟩
          | simp [h1, h2, file_ext_lower]
  }

theorem processFragment_resource_format (h : Handler) (u : UrlData) :
    (processFragment h u).resource_format = u.resource_format := by
  cases h <;> simp only [processFragment]
  all_goals first
    | exact (processFragmentBase_formats _).1
    | (unfold processFragmentZip; split <;> rfl)
    | rfl

theorem processTargetFileBase_lower (u u' : UrlData)
    (h1 : lowercaseOrNone u.resource_format = true)
    (h2 : lowercaseOrNone u.target_format = true)
    (hb : processTargetFileBase u = Except.ok u') :
    lowercaseOrNone u'.resource_format = true ∧ lowercaseOrNone u'.target_format = true := by
  simp only [processTargetFileBase] at hb
  split at hb
  · obtain ⟨s, hs, hb⟩ := bindE_ok_inv hb
    obtain ⟨y, hy, hb⟩ := bindE_ok_inv hb
    injection hy with hy
    injection hb with hb
    subst hy
    subst hb
    refine ⟨?_, ?_⟩ <;>
      · repeat' first
          | split
          | dsimp only
        all_goals first
          | exact h1
          | exact h2
          | exact file_ext_lower _
  · injection hb with hb
    subst hb
    refine ⟨?_, ?_⟩ <;>
      · repeat' first
          | split
          | dsimp only
        all_goals first
          | exact h1
          | exact h2
          | exact file_ext_lower _

theorem processTargetFile_lower (h : Handler) (u u' : UrlData)
    (h1 : lowercaseOrNone u.resource_format = true)
    (h2 : lowercaseOrNone u.target_format = true)
    (hr : processTargetFile h u = Except.ok u') :
    lowercaseOrNone u'.resource_format = true ∧ lowercaseOrNone u'.target_format = true := by
  cases h
  case zip =>
    simp only [processTargetFile] at hr
    injection hr with hr
    subst hr
    unfold processTargetFileZip
    have ha := zipExtStep_fields (u.resource_file.getD []) (S "csv") u
    have hb2 := zipExtStep_fields (u.resource_file.getD []) (S "xls")
      (zipExtStep (u.resource_file.getD []) (S "csv") u)
    have hc := zipExtStep_fields (u.resource_file.getD []) (S "xlsx")
      (zipExtStep (u.resource_file.getD []) (S "xls")
        (zipExtStep (u.resource_file.getD []) (S "csv") u))
    refine ⟨?_, ?_⟩ <;>
      · repeat' first
          | split
          | dsimp only
        all_goals first
          | (rw [hc.2.1, hb2.2.1, ha.2.1]; exact h1)
          | (rw [hc.2.2, hb2.2.2, ha.2.2]; exact h2)
          | exact file_ext_lower _
  case noteboot =>
    simp only [processTargetFile] at hr
    obtain ⟨v, hv, hr⟩ := bindE_ok_inv hr
    split at hr
    · injection hr with hr
      subst hr
      exact processTargetFileBase_lower u v h1 h2 hv
    · cases hr
  all_goals {
    simp only [processTargetFile] at hr
    exact processTargetFileBase_lower u u' h1 h2 hr
  }

/-- C9 (corrected): for every descriptor the locator model produces,
`resource_format` and `target_format` are `None` or lower-case, *provided* the
`resource_format` keyword override (which `_assign_args` stores verbatim,
unlike `target_format` — see the counterexample) is itself lower-case or
absent. -/
theorem claim_c9_formats_lowercase (url : List Char) (kw : Kwargs) (o : UrlData)
    (hrf : lowercaseOrNone kw.resource_format = true)
    (hmk : mkUrl url kw = Except.ok o) :
    lowercaseOrNone o.resource_format = true ∧ lowercaseOrNone o.target_format = true := by
  simp only [mkUrl] at hmk
  obtain ⟨h, hg, hmk⟩ := bindE_ok_inv hmk
  obtain ⟨p, hep, hmk⟩ := bindE_ok_inv hmk
  obtain ⟨u1, parts1⟩ := p
  dsimp only at hmk
  simp only [processAll] at hmk
  obtain ⟨a1, hp1, hmk⟩ := bindE_ok_inv hmk
  obtain ⟨a2, hr2, hmk⟩ := bindE_ok_inv hmk
  have ha0 := assignArgs_lower h u1 parts1 (applyInitKwargs h kw)
    (applyInitKwargs_resource_format_lower h kw hrf)
  have hpp := processProto_preserves _ a1 hp1
  have h1a : lowercaseOrNone a1.resource_format = true := by rw [hpp.2.1]; exact ha0.1
  have h2a : lowercaseOrNone a1.target_format = true := by rw [hpp.1]; exact ha0.2
  have hru := processResourceUrl_lower h a1 a2 h1a h2a hr2
  have hfr1 : lowercaseOrNone (processFragment h a2).resource_format = true := by
    rw [processFragment_resource_format]; exact hru.1
  have hfr2 : lowercaseOrNone (processFragment h a2).target_format = true := by
    rw [(processFragment_preserves_target_format h a2).1]; exact hru.2
  exact processTargetFile_lower h (processFragment h a2) o hfr1 hfr2 hmk

/-- C9 witness: the upper-case locator `http://EX.com/A.CSV` with no
overrides yields lower-case-or-`None` formats. -/
theorem claim_c9_witness :
    lowercaseOrNone ({} : Kwargs).resource_format = true ∧
    ∃ o, mkUrl (S "http://EX.com/A.CSV") {} = Except.ok o ∧
      lowercaseOrNone o.resource_format = true ∧ lowercaseOrNone o.target_format = true := by
  refine ⟨by decide, ?_⟩
  rcases hmk : mkUrl (S "http://EX.com/A.CSV") {} with e | o
  · have hok : (mkUrl (S "http://EX.com/A.CSV") {}).isOk = true := by decide
    rw [hmk] at hok
    simp [Except.isOk, Except.toBool] at hok
  exact ⟨o, rfl, claim_c9_formats_lowercase _ {} o (by decide) hmk⟩

theorem char_valid_bounds (c : Char) :
    c.toNat < 0xD800 ∨ (0xE000 ≤ c.toNat ∧ c.toNat < 0x110000) := by
  have h := c.valid
  unfold UInt32.isValidChar Nat.isValidChar at h
  exact h

theorem charOfNat_eq (n : Nat) (h : Nat.isValidChar n) (c : Char) (hc : c.toNat = n) :
    Char.ofNat n = c := by
  apply Char.ext
  apply UInt32.toNat.inj
  show (Char.ofNat n).toNat = c.toNat
  rw [hc]
  unfold Char.ofNat
  rw [dif_pos h]
  rfl

theorem utf8Dec_one (x : Nat) (bs : List Nat) (hx : x < 0x80) :
    utf8Dec (x :: bs) = Char.ofNat x :: utf8Dec bs := by
  match bs with
  | [] => simp only [utf8Dec, if_pos hx]
  | [y] => simp only [utf8Dec, if_pos hx]
  | [y, z] => simp only [utf8Dec, if_pos hx]
  | y :: z :: w :: t => simp only [utf8Dec, if_pos hx]

theorem utf8Dec_two (x y : Nat) (bs : List Nat)
    (hx : 0xC2 ≤ x ∧ x < 0xE0) (hy : isContByte y = true) :
    utf8Dec (x :: y :: bs) = Char.ofNat ((x - 0xC0) * 64 + (y - 0x80)) :: utf8Dec bs := by
  match bs with
  | [] =>
    simp only [utf8Dec]
    rw [if_neg (by omega), if_neg (by omega), if_pos (by omega), if_pos hy]
  | [z] =>
    simp only [utf8Dec]
    rw [if_neg (by omega), if_neg (by omega), if_pos (by omega), if_pos hy]
  | z :: w :: t =>
    simp only [utf8Dec]
    rw [if_neg (by omega), if_neg (by omega), if_pos (by omega), if_pos hy]

theorem utf8Dec_three (x y z : Nat) (bs : List Nat)
    (hx : 0xE0 ≤ x ∧ x < 0xF0) (hy : isContByte y = true) (hz : isContByte z = true)
    (h1 : ¬(x = 0xE0 ∧ y < 0xA0)) (h2 : ¬(x = 0xED ∧ 0xA0 ≤ y)) :
    utf8Dec (x :: y :: z :: bs)
      = Char.ofNat ((x - 0xE0) * 4096 + (y - 0x80) * 64 + (z - 0x80)) :: utf8Dec bs := by
  match bs with
  | [] =>
    simp only [utf8Dec]
    rw [if_neg (by omega), if_neg (by omega), if_neg (by omega), if_pos (by omega),
      if_pos ⟨hy, hz, h1, h2⟩]
  | w :: t =>
    simp only [utf8Dec]
    rw [if_neg (by omega), if_neg (by omega), if_neg (by omega), if_pos (by omega),
      if_pos ⟨hy, hz, h1, h2⟩]

theorem utf8Dec_four (x y z w : Nat) (bs : List Nat)
    (hx : 0xF0 ≤ x ∧ x < 0xF5) (hy : isContByte y = true) (hz : isContByte z = true)
    (hw : isContByte w = true)
    (h1 : ¬(x = 0xF0 ∧ y < 0x90)) (h2 : ¬(x = 0xF4 ∧ 0x90 ≤ y)) :
    utf8Dec (x :: y :: z :: w :: bs)
      = Char.ofNat ((x - 0xF0) * 262144 + (y - 0x80) * 4096 + (z - 0x80) * 64 + (w - 0x80))
          :: utf8Dec bs := by
  simp only [utf8Dec]
  rw [if_neg (by omega), if_neg (by omega), if_neg (by omega), if_neg (by omega),
    if_pos (by omega), if_pos ⟨hy, hz, hw, h1, h2⟩]

theorem utf8Dec_encode_cons (c : Char) (bs : List Nat) :
    utf8Dec (utf8Encode c ++ bs) = c :: utf8Dec bs := by
  have hv := char_valid_bounds c
  unfold utf8Encode utf8EncodeNat
  by_cases h1 : c.toNat < 0x80
  · rw [if_pos h1]
    simp only [List.cons_append, List.nil_append]
    rw [utf8Dec_one _ _ h1, charOfNat_eq c.toNat (Or.inl (by omega)) c rfl]
  · rw [if_neg h1]
    by_cases h2 : c.toNat < 0x800
    · rw [if_pos h2]
      simp only [List.cons_append, List.nil_append]
      rw [utf8Dec_two _ _ _ (by omega) (by simp only [isContByte, decide_eq_true_eq]; omega)]
      have harith : (0xC0 + c.toNat / 64 - 0xC0) * 64 + (0x80 + c.toNat % 64 - 0x80)
          = c.toNat := by omega
      rw [harith, charOfNat_eq c.toNat (Or.inl (by omega)) c rfl]
    · rw [if_neg h2]
      by_cases h3 : c.toNat < 0x10000
      · rw [if_pos h3]
        simp only [List.cons_append, List.nil_append]
        rw [utf8Dec_three _ _ _ _ (by omega)
          (by simp only [isContByte, decide_eq_true_eq]; omega)
          (by simp only [isContByte, decide_eq_true_eq]; omega)
          (by intro hx; omega) (by intro hx; omega)]
        have harith : (0xE0 + c.toNat / 4096 - 0xE0) * 4096 +
            (0x80 + c.toNat / 64 % 64 - 0x80) * 64 + (0x80 + c.toNat % 64 - 0x80)
            = c.toNat := by omega
        rw [harith, charOfNat_eq c.toNat (by unfold Nat.isValidChar; omega) c rfl]
      · rw [if_neg h3]
        simp only [List.cons_append, List.nil_append]
        rw [utf8Dec_four _ _ _ _ _ (by omega)
          (by simp only [isContByte, decide_eq_true_eq]; omega)
          (by simp only [isContByte, decide_eq_true_eq]; omega)
          (by simp only [isContByte, decide_eq_true_eq]; omega)
          (by intro hx; omega) (by intro hx; omega)]
        have harith : (0xF0 + c.toNat / 262144 - 0xF0) * 262144 +
            (0x80 + c.toNat / 4096 % 64 - 0x80) * 4096 +
            (0x80 + c.toNat / 64 % 64 - 0x80) * 64 + (0x80 + c.toNat % 64 - 0x80)
            = c.toNat := by omega
        rw [harith, charOfNat_eq c.toNat (by unfold Nat.isValidChar; omega) c rfl]

theorem utf8Dec_flatMap_encode (pre : List Char) :
    utf8Dec (pre.flatMap utf8Encode) = pre := by
  induction pre with
  | nil => rfl
  | cons c t ih =>
    rw [List.flatMap_cons, utf8Dec_encode_cons, ih]

theorem hexVal_hexDigitUpper (n : Nat) (h : n < 16) :
    hexVal (hexDigitUpper n) = some n := by
  interval_cases n <;> decide

theorem unquoteAux_pct (b : Nat) (hb : b < 256) (t : List Char) (acc : List Nat) :
    unquoteAux ('%' :: hexDigitUpper (b / 16) :: hexDigitUpper (b % 16) :: t) acc
      = unquoteAux t (b :: acc) := by
  simp only [unquoteAux]
  rw [hexVal_hexDigitUpper (b / 16) (by omega), hexVal_hexDigitUpper (b % 16) (by omega)]
  dsimp only
  have h16 : 16 * (b / 16) + b % 16 = b := by omega
  rw [h16]

theorem unquoteAux_flush (c : Char) (hc : c ≠ '%') (t : List Char) (acc : List Nat) :
    unquoteAux (c :: t) acc = utf8Dec acc.reverse ++ c :: unquoteAux t [] := by
  match t with
  | [] => simp only [unquoteAux]
  | [x] => simp only [unquoteAux]
  | x :: y :: t' =>
    conv_lhs => rw [unquoteAux.eq_def]
    split
    · rename_i heq
      injection heq with hch
      exact absurd hch hc
    · rename_i f heq
      injection heq with hch htl
      subst hch
      subst htl
      rfl
    · rename_i heq
      cases heq

theorem unquoteAux_pctRun (B : List Nat) (hB : ∀ b ∈ B, b < 256) (t : List Char)
    (acc : List Nat) :
    unquoteAux (B.flatMap pctEncodeByte ++ t) acc = unquoteAux t (B.reverse ++ acc) := by
  induction B generalizing acc with
  | nil => simp
  | cons b B' ih =>
    rw [List.flatMap_cons, List.append_assoc]
    show unquoteAux ('%' :: hexDigitUpper (b / 16) :: hexDigitUpper (b % 16)
      :: (B'.flatMap pctEncodeByte ++ t)) acc = _
    rw [unquoteAux_pct b (hB b (List.mem_cons_self b B')) _ _,
      ih (fun x hx => hB x (List.mem_cons_of_mem b hx))]
    simp

theorem utf8Encode_lt (c : Char) : ∀ b ∈ utf8Encode c, b < 256 := by
  intro b hb
  unfold utf8Encode utf8EncodeNat at hb
  have hv := char_valid_bounds c
  repeat' split at hb
  all_goals simp only [List.mem_cons, List.mem_singleton, List.not_mem_nil] at hb
  all_goals rcases hb with h | h | h | h | h <;> first | omega | (subst h; omega) | cases h

theorem hexDigitUpper_ne_plus (n : Nat) (h : n < 16) : hexDigitUpper n ≠ '+' := by
  interval_cases n <;> decide

theorem quotePlus_map_plus (s : List Char) :
    (quotePlus s).map (fun c => if c = '+' then ' ' else c)
      = s.flatMap (fun c =>
          if isAlwaysSafe c then [c]
          else if c = ' ' then [' ']
          else (utf8Encode c).flatMap pctEncodeByte) := by
  induction s with
  | nil => rfl
  | cons c t ih =>
    show (quotePlus (c :: t)).map _ = _
    rw [List.flatMap_cons]
    unfold quotePlus
    rw [List.flatMap_cons, List.map_append]
    have hrest : (t.flatMap (fun c =>
        if isAlwaysSafe c then [c]
        else if c = ' ' then ['+']
        else (utf8Encode c).flatMap pctEncodeByte)).map (fun c => if c = '+' then ' ' else c)
        = t.flatMap (fun c =>
          if isAlwaysSafe c then [c]
          else if c = ' ' then [' ']
          else (utf8Encode c).flatMap pctEncodeByte) := ih
    rw [hrest]
    congr 1
    by_cases hs : isAlwaysSafe c = true
    · rw [if_pos hs, if_pos hs]
      have hne : c ≠ '+' := by
        intro hcc
        subst hcc
        exact absurd hs (by decide)
      simp [hne]
    · rw [if_neg hs, if_neg hs]
      by_cases hsp : c = ' '
      · rw [if_pos hsp, if_pos hsp]
        rfl
      · rw [if_neg hsp, if_neg hsp]
        rw [List.map_flatMap]
        have hby : ∀ (B : List Nat), (∀ b ∈ B, b < 256) →
            B.flatMap (fun b => (pctEncodeByte b).map (fun c => if c = '+' then ' ' else c))
              = B.flatMap pctEncodeByte := by
          intro B hB
          induction B with
          | nil => rfl
          | cons b B' ihB =>
            rw [List.flatMap_cons, List.flatMap_cons,
              ihB (fun x hx => hB x (List.mem_cons_of_mem b hx))]
            congr 1
            have hb : b < 256 := hB b (List.mem_cons_self b B')
            unfold pctEncodeByte
            simp only [List.map_cons, List.map_nil]
            rw [if_neg (by decide : ¬('%' = '+')),
              if_neg (hexDigitUpper_ne_plus (b / 16) (by omega)),
              if_neg (hexDigitUpper_ne_plus (b % 16) (by omega))]
        exact hby (utf8Encode c) (utf8Encode_lt c)

theorem unquoteAux_enc (s : List Char) : ∀ (pre : List Char),
    unquoteAux (s.flatMap (fun c =>
        if isAlwaysSafe c then [c]
        else if c = ' ' then [' ']
        else (utf8Encode c).flatMap pctEncodeByte))
      ((pre.flatMap utf8Encode).reverse)
      = pre ++ s := by
  induction s with
  | nil =>
    intro pre
    simp only [List.flatMap_nil, unquoteAux]
    rw [List.reverse_reverse, utf8Dec_flatMap_encode, List.append_nil]
  | cons c t ih =>
    intro pre
    rw [List.flatMap_cons]
    by_cases hs : isAlwaysSafe c = true
    · rw [if_pos hs]
      show unquoteAux (c :: _) _ = _
      have hne : c ≠ '%' := by
        intro hcc
        subst hcc
        exact absurd hs (by decide)
      rw [unquoteAux_flush c hne _ _, List.reverse_reverse, utf8Dec_flatMap_encode]
      simp only [List.append_eq, List.nil_append]
      have hih := ih []
      simp only [List.flatMap_nil, List.reverse_nil, List.nil_append] at hih
      rw [hih]
    · rw [if_neg hs]
      by_cases hsp : c = ' '
      · rw [if_pos hsp]
        show unquoteAux (' ' :: _) _ = _
        rw [unquoteAux_flush ' ' (by decide) _ _, List.reverse_reverse, utf8Dec_flatMap_encode]
        simp only [List.append_eq, List.nil_append]
        have hih := ih []
        simp only [List.flatMap_nil, List.reverse_nil, List.nil_append] at hih
        rw [hih, hsp]
      · rw [if_neg hsp]
        rw [unquoteAux_pctRun (utf8Encode c) (utf8Encode_lt c) _ _]
        have hacc : (utf8Encode c).reverse ++ (pre.flatMap utf8Encode).reverse
            = ((pre ++ [c]).flatMap utf8Encode).reverse := by
          rw [List.flatMap_append]
          simp [List.reverse_append]
        rw [hacc, ih (pre ++ [c])]
        simp

theorem unquote_quotePlus (s : List Char) : unquotePlus (quotePlus s) = s := by
  unfold unquotePlus pyUnquote
  rw [quotePlus_map_plus]
  have h := unquoteAux_enc s []
  simpa using h

theorem utf8Encode_ne_nil (c : Char) : utf8Encode c ≠ [] := by
  unfold utf8Encode utf8EncodeNat
  repeat' split
  all_goals simp

theorem quotePlus_ne_nil (f : List Char) (h : f ≠ []) : quotePlus f ≠ [] := by
  cases f with
  | nil => exact absurd rfl h
  | cons c t =>
    unfold quotePlus
    rw [List.flatMap_cons]
    intro habs
    rcases List.append_eq_nil.mp habs with ⟨h1, _⟩
    revert h1
    split
    · simp
    · split
      · simp
      · cases hE : utf8Encode c with
        | nil => exact absurd hE (utf8Encode_ne_nil c)
        | cons b bs =>
          intro h1
          rw [List.flatMap_cons] at h1
          rcases List.append_eq_nil.mp h1 with ⟨h2, _⟩
          simp [pctEncodeByte] at h2

theorem findChar_append_sep (sep : Char) (s t : List Char) (h : sep ∉ s) :
    findChar sep (s ++ sep :: t) = some s.length := by
  induction s with
  | nil => simp [findChar]
  | cons c s' ih =>
    have hc : c ≠ sep := fun hcc => h (hcc ▸ List.mem_cons_self c s')
    have hs' : sep ∉ s' := fun hm => h (List.mem_cons_of_mem c hm)
    simp only [List.cons_append, findChar, if_neg hc, List.append_eq, ih hs',
      List.length_cons]
    rfl

theorem splitAtFirst_append_sep (sep : Char) (s t : List Char) (h : sep ∉ s) :
    splitAtFirst sep (s ++ sep :: t) = (s, some t) := by
  induction s with
  | nil => simp [splitAtFirst]
  | cons c s' ih =>
    have hc : c ≠ sep := fun hcc => h (hcc ▸ List.mem_cons_self c s')
    have hs' : sep ∉ s' := fun hm => h (List.mem_cons_of_mem c hm)
    simp only [List.cons_append, splitAtFirst, if_neg hc, List.append_eq, ih hs']

theorem takeWhile_append_all (f : Char → Bool) (s t : List Char) (h : s.all f = true) :
    (s ++ t).takeWhile f = s ++ t.takeWhile f ∧ (s ++ t).dropWhile f = t.dropWhile f := by
  induction s with
  | nil => simp
  | cons c s' ih =>
    simp only [List.all_cons, Bool.and_eq_true] at h
    have ihh := ih h.2
    simp only [List.cons_append, List.takeWhile_cons, List.dropWhile_cons, h.1, if_true]
    exact ⟨by rw [ihh.1], ihh.2⟩

theorem slash_lstrip (p : List Char) (h1 : startsWithL (S "/") p = true)
    (h2 : startsWithL (S "//") p = false) : '/' :: lstripChar '/' p = p := by
  match p with
  | [] => exact absurd h1 (by decide)
  | [c] =>
    have hc : c = '/' := by
      have := h1
      simp only [startsWithL, S, List.take, decide_eq_true_eq] at this
      injection this with h
    subst hc
    rfl
  | c :: c2 :: t =>
    have hc : c = '/' := by
      have := h1
      simp only [startsWithL, S, List.take, decide_eq_true_eq] at this
      injection this with h
    subst hc
    have hc2 : c2 ≠ '/' := by
      intro hcc
      subst hcc
      simp [startsWithL, S] at h2
    unfold lstripChar
    rw [List.dropWhile_cons_of_pos (by simp), List.dropWhile_cons_of_neg (by simp [hc2])]

theorem splitOnChar_not_mem (sep : Char) (b : List Char) (h : sep ∉ b) :
    splitOnChar sep b = [b] := by
  induction b with
  | nil => rfl
  | cons c t ih =>
    have hc : c ≠ sep := fun hcc => h (hcc ▸ List.mem_cons_self c t)
    have ht : sep ∉ t := fun hm => h (List.mem_cons_of_mem c hm)
    simp only [splitOnChar, if_neg hc, ih ht]

theorem splitOnChar_pair (sep : Char) (a b : List Char) (ha : sep ∉ a) (hb : sep ∉ b) :
    splitOnChar sep (a ++ sep :: b) = [a, b] := by
  induction a with
  | nil => simp [splitOnChar, splitOnChar_not_mem sep b hb]
  | cons c a' ih =>
    have hc : c ≠ sep := fun hcc => ha (hcc ▸ List.mem_cons_self c a')
    have ha' : sep ∉ a' := fun hm => ha (List.mem_cons_of_mem c hm)
    simp only [List.cons_append, splitOnChar, List.append_eq, if_neg hc, ih ha']

theorem isSchemeChar_ne_colon (c : Char) (h : isSchemeChar c = true) : c ≠ ':' := by
  intro hc
  subst hc
  exact absurd h (by decide)

theorem splitScheme_append (pre rest : List Char) (hne : pre ≠ [])
    (hall : pre.all isSchemeChar = true) :
    splitScheme (pre ++ ':' :: rest) = (lowerStr pre, rest) := by
  unfold splitScheme
  have hnc : ':' ∉ pre := fun hm =>
    isSchemeChar_ne_colon ':' (List.all_eq_true.mp hall ':' hm) rfl
  rw [findChar_append_sep ':' pre rest hnc]
  dsimp only
  rw [if_pos ⟨by cases pre with | nil => exact absurd rfl hne | cons a b => simp,
    by rw [List.take_left]; exact hall⟩]
  rw [List.take_left]
  have hd : (pre ++ ':' :: rest).drop (pre.length + 1) = rest := by
    rw [show pre.length + 1 = (pre ++ [':']).length by simp]
    rw [show pre ++ ':' :: rest = (pre ++ [':']) ++ rest by simp]
    exact List.drop_left _ _
  rw [hd]

theorem urlparseL_A (pre netloc path Q F : List Char)
    (hpre : pre ≠ []) (hpreall : pre.all isSchemeChar = true)
    (hnet : netloc.all (fun c => ¬(c = '/' ∨ c = '?' ∨ c = '#')) = true)
    (hpath : startsWithL (S "/") path = true)
    (hph : '#' ∉ path) (hpq : '?' ∉ path) (hps : ';' ∉ path)
    (hQ : Q = [] ∨ ∃ q, Q = '?' :: q ∧ '#' ∉ q)
    (hF : F = [] ∨ ∃ g, F = '#' :: g) :
    urlparseL (pre ++ ':' :: '/' :: '/' :: (netloc ++ path ++ Q ++ F)) =
      { scheme := lowerStr pre, netloc := netloc, path := path, params := [],
        query := Q.drop 1, fragment := F.drop 1 } := by
  unfold urlparseL
  rw [splitScheme_append pre _ hpre hpreall]
  dsimp only
  rw [if_pos (by simp [startsWithL, S])]
  simp only [splitNetloc]
  have hdrop2 : ('/' :: '/' :: (netloc ++ path ++ Q ++ F)).drop 2
      = netloc ++ (path ++ Q ++ F) := by simp
  rw [hdrop2]
  obtain ⟨p0, hp0⟩ : ∃ p0, path = '/' :: p0 := by
    cases path with
    | nil => exact absurd hpath (by decide)
    | cons a b =>
      have : a = '/' := by
        simp only [startsWithL, S, List.take, decide_eq_true_eq] at hpath
        injection hpath with h
      exact ⟨b, by rw [this]⟩
  have htw := takeWhile_append_all (fun c => ¬(c = '/' ∨ c = '?' ∨ c = '#'))
    netloc (path ++ Q ++ F) hnet
  have hrest_tw : ((path ++ Q ++ F)).takeWhile (fun c => ¬(c = '/' ∨ c = '?' ∨ c = '#')) = [] := by
    rw [hp0]
    simp
  have hrest_dw : ((path ++ Q ++ F)).dropWhile (fun c => ¬(c = '/' ∨ c = '?' ∨ c = '#'))
      = path ++ Q ++ F := by
    rw [hp0]
    simp
  rw [htw.1, htw.2, hrest_tw, hrest_dw, List.append_nil]
  have hmemPQ : '#' ∉ path ++ Q := by
    intro hm
    rcases List.mem_append.mp hm with hm | hm
    · exact hph hm
    · rcases hQ with hQ | ⟨q, hQq, hQh⟩
      · subst hQ; cases hm
      · subst hQq
        rcases List.mem_cons.mp hm with hm | hm
        · cases hm
        · exact hQh hm
  have hsplitF : splitAtFirst '#' (path ++ Q ++ F)
      = (path ++ Q, match F with | [] => none | _ :: g => some g) := by
    rcases hF with hF | ⟨g, hFg⟩
    · subst hF
      show splitAtFirst '#' (path ++ Q ++ []) = (path ++ Q, none)
      rw [List.append_nil]
      exact splitAtFirst_not_mem '#' (path ++ Q) hmemPQ
    · subst hFg
      show splitAtFirst '#' (path ++ Q ++ ('#' :: g)) = (path ++ Q, some g)
      rw [show path ++ Q ++ ('#' :: g) = (path ++ Q) ++ '#' :: g from by simp]
      exact splitAtFirst_append_sep '#' (path ++ Q) g hmemPQ
  rw [hsplitF]
  dsimp only
  have hsplitQ : splitAtFirst '?' (path ++ Q)
      = (path, match Q with | [] => none | _ :: q => some q) := by
    rcases hQ with hQ | ⟨q, hQq, _⟩
    · subst hQ
      show splitAtFirst '?' (path ++ []) = (path, none)
      rw [List.append_nil]
      exact splitAtFirst_not_mem '?' path hpq
    · subst hQq
      show splitAtFirst '?' (path ++ ('?' :: q)) = (path, some q)
      exact splitAtFirst_append_sep '?' path q hpq
  rw [hsplitQ]
  dsimp only
  have hparams : splitParams path = (path, []) := by
    unfold splitParams
    rw [if_neg (by simpa using hps)]
  rw [hparams]
  rcases hQ with hQ | ⟨q, hQq, _⟩ <;> rcases hF with hF | ⟨g, hFg⟩ <;>
    subst_vars <;> rfl

theorem urlparseL_B (pre path Q F : List Char)
    (hpre : pre ≠ []) (hpreall : pre.all isSchemeChar = true)
    (hslash : startsWithL (S "//") (path ++ Q ++ F) = false)
    (hph : '#' ∉ path) (hpq : '?' ∉ path) (hps : ';' ∉ path)
    (hQ : Q = [] ∨ ∃ q, Q = '?' :: q ∧ '#' ∉ q)
    (hF : F = [] ∨ ∃ g, F = '#' :: g) :
    urlparseL (pre ++ ':' :: (path ++ Q ++ F)) =
      { scheme := lowerStr pre, netloc := [], path := path, params := [],
        query := Q.drop 1, fragment := F.drop 1 } := by
  unfold urlparseL
  rw [splitScheme_append pre _ hpre hpreall]
  dsimp only
  rw [if_neg (by rw [hslash]; exact Bool.false_ne_true)]
  dsimp only
  have hmemPQ : '#' ∉ path ++ Q := by
    intro hm
    rcases List.mem_append.mp hm with hm | hm
    · exact hph hm
    · rcases hQ with hQ | ⟨q, hQq, hQh⟩
      · subst hQ; cases hm
      · subst hQq
        rcases List.mem_cons.mp hm with hm | hm
        · cases hm
        · exact hQh hm
  have hsplitF : splitAtFirst '#' (path ++ Q ++ F)
      = (path ++ Q, match F with | [] => none | _ :: g => some g) := by
    rcases hF with hF | ⟨g, hFg⟩
    · subst hF
      show splitAtFirst '#' (path ++ Q ++ []) = (path ++ Q, none)
      rw [List.append_nil]
      exact splitAtFirst_not_mem '#' (path ++ Q) hmemPQ
    · subst hFg
      show splitAtFirst '#' (path ++ Q ++ ('#' :: g)) = (path ++ Q, some g)
      rw [show path ++ Q ++ ('#' :: g) = (path ++ Q) ++ '#' :: g from by simp]
      exact splitAtFirst_append_sep '#' (path ++ Q) g hmemPQ
  rw [hsplitF]
  dsimp only
  have hsplitQ : splitAtFirst '?' (path ++ Q)
      = (path, match Q with | [] => none | _ :: q => some q) := by
    rcases hQ with hQ | ⟨q, hQq, _⟩
    · subst hQ
      show splitAtFirst '?' (path ++ []) = (path, none)
      rw [List.append_nil]
      exact splitAtFirst_not_mem '?' path hpq
    · subst hQq
      show splitAtFirst '?' (path ++ ('?' :: q)) = (path, some q)
      exact splitAtFirst_append_sep '?' path q hpq
  rw [hsplitQ]
  dsimp only
  have hparams : splitParams path = (path, []) := by
    unfold splitParams
    rw [if_neg (by simpa using hps)]
  rw [hparams]
  rcases hQ with hQ | ⟨q, hQq, _⟩ <;> rcases hF with hF | ⟨g, hFg⟩ <;>
    subst_vars <;> rfl

theorem unparse_A (d : UrlDict) (hnet : d.netloc ≠ [])
    (hport : d.port = none) (huser : truthy d.username = false)
    (hpass : truthy d.password = false)
    (hscheme : d.scheme ≠ [])
    (hext : d.scheme_extension = none)
    (hpath : startsWithL (S "/") d.path = true)
    (h2s : startsWithL (S "//") d.path = false) :
    unparse_url_dict d {} = d.scheme ++ ':' :: '/' :: '/' :: (d.netloc ++ d.path
      ++ (if d.query = [] then [] else '?' :: d.query)
      ++ (match d.fragment with
          | none => []
          | some f => if f ≠ [] then '#' :: quotePlus f else [])) := by
  simp only [unparse_url_dict, hport, hext, huser, hpass, Bool.false_eq_true, if_false,
    List.append_nil, ite_false]
  have h0 : (if ([] : List Char) ≠ [] then [] ++ '@' :: d.netloc else d.netloc)
      = d.netloc := by simp
  rw [h0]
  rw [if_pos ⟨by simp [truthy, hscheme], hnet⟩]
  rw [Option.getD_some, slash_lstrip d.path hpath h2s]
  have hqe : (match if d.query = [] then none else some d.query with
      | some q => if q ≠ [] then '?' :: q else []
      | none => ([] : List Char)) = (if d.query = [] then [] else '?' :: d.query) := by
    by_cases hq : d.query = []
    · simp [hq]
    · simp [hq]
  rw [hqe]
  rw [show S "://" = [':', '/', '/'] from rfl]
  simp only [List.append_assoc, List.cons_append, List.nil_append]
  cases d.fragment <;> simp [List.append_assoc]

theorem unparse_B (d : UrlDict) (hnet : d.netloc = [])
    (hport : d.port = none) (huser : truthy d.username = false)
    (hpass : truthy d.password = false)
    (hfm : d.scheme = S "file" ∨ d.scheme = S "mailto")
    (hext : d.scheme_extension = none) :
    unparse_url_dict d {} = d.scheme ++ ':' :: (d.path
      ++ (if d.query = [] then [] else '?' :: d.query)
      ++ (match d.fragment with
          | none => []
          | some f => if f ≠ [] then '#' :: quotePlus f else [])) := by
  simp only [unparse_url_dict, hport, hext, huser, hpass, Bool.false_eq_true, if_false,
    List.append_nil, ite_false, hnet]
  have h0 : (if ([] : List Char) ≠ [] then [] ++ '@' :: ([] : List Char) else [])
      = ([] : List Char) := by simp
  rw [h0]
  rw [if_neg (by simp)]
  rw [if_pos (by rcases hfm with h | h <;> simp [h])]
  rw [Option.getD_some]
  have hqe : (match if d.query = [] then none else some d.query with
      | some q => if q ≠ [] then '?' :: q else []
      | none => ([] : List Char)) = (if d.query = [] then [] else '?' :: d.query) := by
    by_cases hq : d.query = []
    · simp [hq]
    · simp [hq]
  rw [hqe]
  simp only [List.append_assoc, List.cons_append, List.nil_append]
  cases d.fragment <;> simp [List.append_assoc]

theorem driveMatch_schemey (pre rest : List Char) (h2 : 2 ≤ pre.length)
    (hall : pre.all isSchemeChar = true) : driveMatch (pre ++ rest) = false := by
  match pre, h2 with
  | a :: b :: t, _ =>
    simp only [List.all_cons, Bool.and_eq_true] at hall
    have hb : b ≠ ':' := by
      intro hc
      subst hc
      exact absurd hall.2.1 (by decide)
    simp [driveMatch, hb]

theorem parse_from_splitres (U : List Char) (d : UrlDict)
    (hdm : driveMatch U = false)
    (hup : urlparseL U = ⟨d.scheme, d.netloc, d.path, [], d.query,
        match d.fragment with | none => [] | some f => quotePlus f⟩)
    (hplus : d.scheme.contains '+' = false)
    (hne : d.scheme ≠ [])
    (hextn : d.scheme_extension = none)
    (hparams : d.params = [])
    (hfrag : d.fragment ≠ some [])
    (hhost : d.hostname = hostnameOf d.netloc)
    (husern : d.username = usernameOf d.netloc)
    (hpassw : d.password = passwordOf d.netloc)
    (hportof : portOf d.netloc = Except.ok d.port) :
    parse_url_to_dict U = Except.ok d := by
  simp only [parse_url_to_dict]
  rw [if_neg (by rw [hdm]; exact Bool.false_ne_true)]
  rw [hup]
  dsimp only
  rw [hportof, bindE_ok]
  rw [if_neg (by rw [hplus]; exact Bool.false_ne_true)]
  rw [bindE_ok]
  dsimp only
  rw [if_neg hne]
  have hfragEq : (if (match d.fragment with
        | none => ([] : List Char)
        | some f => quotePlus f) = [] then none
      else some (unquotePlus (match d.fragment with
        | none => ([] : List Char)
        | some f => quotePlus f))) = d.fragment := by
    cases hdf : d.fragment with
    | none => simp
    | some f =>
      have hf : f ≠ [] := by
        intro hfe
        subst hfe
        exact hfrag hdf
      rw [if_neg (by simpa using quotePlus_ne_nil f hf)]
      rw [unquote_quotePlus]
  rw [hfragEq, ← hextn, ← hparams, ← hhost, ← husern, ← hpassw]

theorem parse_from_splitres_ext (U : List Char) (d : UrlDict) (e : List Char)
    (hdm : driveMatch U = false)
    (hup : urlparseL U = ⟨e ++ '+' :: d.scheme, d.netloc, d.path, [], d.query,
        match d.fragment with | none => [] | some f => quotePlus f⟩)
    (hplusE : '+' ∉ e) (hplusS : '+' ∉ d.scheme)
    (hexts : d.scheme_extension = some e)
    (hne : d.scheme ≠ [])
    (hparams : d.params = [])
    (hfrag : d.fragment ≠ some [])
    (hhost : d.hostname = hostnameOf d.netloc)
    (husern : d.username = usernameOf d.netloc)
    (hpassw : d.password = passwordOf d.netloc)
    (hportof : portOf d.netloc = Except.ok d.port) :
    parse_url_to_dict U = Except.ok d := by
  simp only [parse_url_to_dict]
  rw [if_neg (by rw [hdm]; exact Bool.false_ne_true)]
  rw [hup]
  dsimp only
  rw [hportof, bindE_ok]
  rw [if_pos (by
    simpa using Or.inr (List.mem_cons_self '+' d.scheme :
      '+' ∈ '+' :: d.scheme))]
  rw [splitOnChar_pair '+' e d.scheme hplusE hplusS]
  dsimp only
  rw [bindE_ok]
  dsimp only
  rw [if_neg hne]
  have hfragEq : (if (match d.fragment with
        | none => ([] : List Char)
        | some f => quotePlus f) = [] then none
      else some (unquotePlus (match d.fragment with
        | none => ([] : List Char)
        | some f => quotePlus f))) = d.fragment := by
    cases hdf : d.fragment with
    | none => simp
    | some f =>
      have hf : f ≠ [] := by
        intro hfe
        subst hfe
        exact hfrag hdf
      rw [if_neg (by simpa using quotePlus_ne_nil f hf)]
      rw [unquote_quotePlus]
  rw [hfragEq, ← hexts, ← hparams, ← hhost, ← husern, ← hpassw]

theorem unparse_A_ext (d : UrlDict) (e : List Char) (hnet : d.netloc ≠ [])
    (hport : d.port = none) (huser : truthy d.username = false)
    (hpass : truthy d.password = false)
    (hscheme : d.scheme ≠ [])
    (hext : d.scheme_extension = some e) (he : e ≠ [])
    (hpath : startsWithL (S "/") d.path = true)
    (h2s : startsWithL (S "//") d.path = false) :
    unparse_url_dict d {} = (e ++ '+' :: d.scheme) ++ ':' :: '/' :: '/' :: (d.netloc ++ d.path
      ++ (if d.query = [] then [] else '?' :: d.query)
      ++ (match d.fragment with
          | none => []
          | some f => if f ≠ [] then '#' :: quotePlus f else [])) := by
  simp only [unparse_url_dict, hport, hext, huser, hpass, Bool.false_eq_true, if_false,
    List.append_nil, ite_false]
  have h0 : (if ([] : List Char) ≠ [] then [] ++ '@' :: d.netloc else d.netloc)
      = d.netloc := by simp
  rw [h0]
  rw [if_pos he]
  rw [if_pos ⟨by simp [truthy, hscheme], hnet⟩]
  rw [Option.getD_some, slash_lstrip d.path hpath h2s]
  have hqe : (match if d.query = [] then none else some d.query with
      | some q => if q ≠ [] then '?' :: q else []
      | none => ([] : List Char)) = (if d.query = [] then [] else '?' :: d.query) := by
    by_cases hq : d.query = []
    · simp [hq]
    · simp [hq]
  rw [hqe]
  rw [show S "://" = [':', '/', '/'] from rfl]
  simp only [List.append_assoc, List.cons_append, List.nil_append]
  cases d.fragment <;> simp [List.append_assoc]

theorem unparse_B_ext (d : UrlDict) (e : List Char) (hnet : d.netloc = [])
    (hport : d.port = none) (huser : truthy d.username = false)
    (hpass : truthy d.password = false)
    (hfm : d.scheme = S "file" ∨ d.scheme = S "mailto")
    (hext : d.scheme_extension = some e) (he : e ≠ []) :
    unparse_url_dict d {} = (e ++ '+' :: d.scheme) ++ ':' :: (d.path
      ++ (if d.query = [] then [] else '?' :: d.query)
      ++ (match d.fragment with
          | none => []
          | some f => if f ≠ [] then '#' :: quotePlus f else [])) := by
  simp only [unparse_url_dict, hport, hext, huser, hpass, Bool.false_eq_true, if_false,
    List.append_nil, ite_false, hnet]
  have h0 : (if ([] : List Char) ≠ [] then [] ++ '@' :: ([] : List Char) else [])
      = ([] : List Char) := by simp
  rw [h0]
  rw [if_pos he]
  rw [if_neg (by simp)]
  rw [if_pos (by rcases hfm with h | h <;> simp [h])]
  rw [Option.getD_some]
  have hqe : (match if d.query = [] then none else some d.query with
      | some q => if q ≠ [] then '?' :: q else []
      | none => ([] : List Char)) = (if d.query = [] then [] else '?' :: d.query) := by
    by_cases hq : d.query = []
    · simp [hq]
    · simp [hq]
  rw [hqe]
  simp only [List.append_assoc, List.cons_append, List.nil_append]
  cases d.fragment <;> simp [List.append_assoc]

theorem not_slash2_compose (path Q F : List Char)
    (h2s : startsWithL (S "//") path = false)
    (hQ : Q = [] ∨ ∃ q, Q = '?' :: q) (hF : F = [] ∨ ∃ g, F = '#' :: g) :
    startsWithL (S "//") (path ++ Q ++ F) = false := by
  rw [Bool.eq_false_iff]
  intro habs
  simp only [startsWithL, S, decide_eq_true_eq] at habs
  match path, h2s, habs with
  | c1 :: c2 :: t, h2s, habs =>
    have hc : c1 = '/' ∧ c2 = '/' := by
      simp only [List.cons_append, List.take_succ_cons, List.take_zero] at habs
      exact ⟨by injection habs, by injection habs with _ h; injection h⟩
    rw [hc.1, hc.2] at h2s
    simp [startsWithL, S] at h2s
  | [c], _, habs =>
    rcases hQ with hQ | ⟨q, hQq⟩ <;> rcases hF with hF | ⟨g, hFg⟩ <;> subst_vars <;>
      simp_all
  | [], _, habs =>
    rcases hQ with hQ | ⟨q, hQq⟩ <;> rcases hF with hF | ⟨g, hFg⟩ <;> subst_vars <;>
      simp_all

theorem lowerStr_append (a b : List Char) : lowerStr (a ++ b) = lowerStr a ++ lowerStr b :=
  List.map_append _ _ _

/-- C3 (corrected): the round trip `parse(unparse(parse(L))) = parse(L)` fails
in general (see the counterexample: an empty path comes back as `/`), but holds
for every locator whose parsed dict is well-formed in the following decidable
sense: scheme of length ≥ 2 (a single letter triggers the Windows-drive-letter
branch), lower-case scheme characters without `+`, a well-formed optional
scheme extension, falsy port/username/password (`unparse_url_dict` would
otherwise duplicate them into the netloc), empty params (they are dropped),
no `#`/`?`/`;` in the path and no `#` in the query, a non-empty fragment or
none, netloc accessors consistent with the netloc, and either a non-empty
netloc with a single-slash-rooted path, or no netloc with a `file`/`mailto`
scheme and no `//`-prefixed path.  The fragment round-trips through
`quote_plus`/`unquote_plus` exactly (`unquote_quotePlus`). -/
theorem claim_c3_roundtrip (L : List Char) (d : UrlDict)
    (hp : parse_url_to_dict L = Except.ok d)
    (hlen : 2 ≤ d.scheme.length)
    (hall : d.scheme.all isSchemeChar = true)
    (hplus : d.scheme.contains '+' = false)
    (hlow : lowerStr d.scheme = d.scheme)
    (hext : d.scheme_extension = none ∨ ∃ e, d.scheme_extension = some e ∧ e ≠ [] ∧
        e.all isSchemeChar = true ∧ '+' ∉ e ∧ lowerStr e = e)
    (hport : d.port = none) (huser : truthy d.username = false)
    (hpass : truthy d.password = false)
    (hparams : d.params = [])
    (hph : '#' ∉ d.path) (hpq : '?' ∉ d.path) (hps : ';' ∉ d.path)
    (hqh : '#' ∉ d.query)
    (hfrag : d.fragment ≠ some [])
    (hhost : d.hostname = hostnameOf d.netloc)
    (husern : d.username = usernameOf d.netloc)
    (hpassw : d.password = passwordOf d.netloc)
    (hportof : portOf d.netloc = Except.ok d.port)
    (hA : d.netloc ≠ [] →
        d.netloc.all (fun c => ¬(c = '/' ∨ c = '?' ∨ c = '#')) = true ∧
        startsWithL (S "/") d.path = true ∧ startsWithL (S "//") d.path = false)
    (hB : d.netloc = [] → (d.scheme = S "file" ∨ d.scheme = S "mailto") ∧
        startsWithL (S "//") d.path = false) :
    parse_url_to_dict (unparse_url_dict d {}) = Except.ok d := by
  have hne : d.scheme ≠ [] := by
    intro h
    rw [h] at hlen
    simp at hlen
  have hplusm : '+' ∉ d.scheme := by
    intro hm
    rw [(by simpa using hm : d.scheme.contains '+' = true)] at hplus
    cases hplus
  have hQsh : (if d.query = [] then ([] : List Char) else '?' :: d.query) = [] ∨
      ∃ q, (if d.query = [] then ([] : List Char) else '?' :: d.query) = '?' :: q ∧ '#' ∉ q := by
    by_cases hq : d.query = []
    · exact Or.inl (by simp [hq])
    · exact Or.inr ⟨d.query, by simp [hq], hqh⟩
  have hQsh' : (if d.query = [] then ([] : List Char) else '?' :: d.query) = [] ∨
      ∃ q, (if d.query = [] then ([] : List Char) else '?' :: d.query) = '?' :: q := by
    rcases hQsh with h | ⟨q, h, _⟩
    · exact Or.inl h
    · exact Or.inr ⟨q, h⟩
  have hFsh : (match d.fragment with
      | none => ([] : List Char)
      | some f => if f ≠ [] then '#' :: quotePlus f else []) = [] ∨
      ∃ g, (match d.fragment with
      | none => ([] : List Char)
      | some f => if f ≠ [] then '#' :: quotePlus f else []) = '#' :: g := by
    cases hdf : d.fragment with
    | none => exact Or.inl rfl
    | some f =>
      have hf : f ≠ [] := by
        intro hfe
        subst hfe
        exact hfrag hdf
      exact Or.inr ⟨quotePlus f, by simp [hf]⟩
  have hQdrop : (if d.query = [] then ([] : List Char) else '?' :: d.query).drop 1
      = d.query := by
    by_cases hq : d.query = [] <;> simp [hq]
  have hFdrop : (match d.fragment with
      | none => ([] : List Char)
      | some f => if f ≠ [] then '#' :: quotePlus f else []).drop 1
      = (match d.fragment with
         | none => ([] : List Char)
         | some f => quotePlus f) := by
    cases hdf : d.fragment with
    | none => rfl
    | some f =>
      have hf : f ≠ [] := by
        intro hfe
        subst hfe
        exact hfrag hdf
      simp [hf]
  by_cases hn : d.netloc = []
  · obtain ⟨hfm, h2s⟩ := hB hn
    have hslash := not_slash2_compose d.path _ _ h2s hQsh' hFsh
    rcases hext with hextn | ⟨e, hexts, he, heall, heplus, helow⟩
    · rw [unparse_B d hn hport huser hpass hfm hextn]
      apply parse_from_splitres _ d (driveMatch_schemey d.scheme _ hlen hall)
        _ hplus hne hextn hparams hfrag hhost husern hpassw hportof
      rw [urlparseL_B d.scheme _ _ _ hne hall hslash hph hpq hps hQsh hFsh]
      rw [hlow, hQdrop, hFdrop, hn]
    · rw [unparse_B_ext d e hn hport huser hpass hfm hexts he]
      have hpre2 : 2 ≤ (e ++ '+' :: d.scheme).length := by
        simp only [List.length_append, List.length_cons]
        omega
      have hpreall : (e ++ '+' :: d.scheme).all isSchemeChar = true := by
        rw [List.all_append, List.all_cons, heall, hall]
        decide
      apply parse_from_splitres_ext _ d e (driveMatch_schemey (e ++ '+' :: d.scheme) _ hpre2 hpreall)
        _ heplus hplusm hexts hne hparams hfrag hhost husern hpassw hportof
      rw [urlparseL_B (e ++ '+' :: d.scheme) _ _ _ (by simp) hpreall hslash hph hpq hps hQsh hFsh]
      rw [lowerStr_append, helow, show lowerStr ('+' :: d.scheme) = '+' :: lowerStr d.scheme from rfl,
        hlow, hQdrop, hFdrop, hn]
  · obtain ⟨hnetall, hpstart, h2s⟩ := hA hn
    rcases hext with hextn | ⟨e, hexts, he, heall, heplus, helow⟩
    · rw [unparse_A d hn hport huser hpass hne hextn hpstart h2s]
      apply parse_from_splitres _ d (driveMatch_schemey d.scheme _ hlen hall)
        _ hplus hne hextn hparams hfrag hhost husern hpassw hportof
      rw [urlparseL_A d.scheme d.netloc _ _ _ hne hall hnetall hpstart hph hpq hps hQsh hFsh]
      rw [hlow, hQdrop, hFdrop]
    · rw [unparse_A_ext d e hn hport huser hpass hne hexts he hpstart h2s]
      have hpre2 : 2 ≤ (e ++ '+' :: d.scheme).length := by
        simp only [List.length_append, List.length_cons]
        omega
      have hpreall : (e ++ '+' :: d.scheme).all isSchemeChar = true := by
        rw [List.all_append, List.all_cons, heall, hall]
        decide
      apply parse_from_splitres_ext _ d e (driveMatch_schemey (e ++ '+' :: d.scheme) _ hpre2 hpreall)
        _ heplus hplusm hexts hne hparams hfrag hhost husern hpassw hportof
      rw [urlparseL_A (e ++ '+' :: d.scheme) d.netloc _ _ _ (by simp) hpreall hnetall hpstart
        hph hpq hps hQsh hFsh]
      rw [lowerStr_append, helow, show lowerStr ('+' :: d.scheme) = '+' :: lowerStr d.scheme from rfl,
        hlow, hQdrop, hFdrop]

/-- C3 witness: `http://ex.com/a.csv?x=1#Sheet%201` parses to a dict that
satisfies every hypothesis and survives the unparse/reparse round trip,
including the `Sheet 1` fragment requoted as `Sheet+1`. -/
theorem claim_c3_witness :
    parse_url_to_dict (S "http://ex.com/a.csv?x=1#Sheet%201") = Except.ok
      { scheme := S "http", scheme_extension := none, netloc := S "ex.com",
        hostname := some (S "ex.com"), path := S "/a.csv", params := [],
        query := S "x=1", fragment := some (S "Sheet 1"), username := none,
        password := none, port := none } ∧
    parse_url_to_dict (unparse_url_dict
      { scheme := S "http", scheme_extension := none, netloc := S "ex.com",
        hostname := some (S "ex.com"), path := S "/a.csv", params := [],
        query := S "x=1", fragment := some (S "Sheet 1"), username := none,
        password := none, port := none } {}) = Except.ok
      { scheme := S "http", scheme_extension := none, netloc := S "ex.com",
        hostname := some (S "ex.com"), path := S "/a.csv", params := [],
        query := S "x=1", fragment := some (S "Sheet 1"), username := none,
        password := none, port := none } := by
  refine ⟨by decide, ?_⟩
  exact claim_c3_roundtrip (S "http://ex.com/a.csv?x=1#Sheet%201") _ (by decide)
    (by decide) (by decide) (by decide) (by decide) (Or.inl (by decide))
    (by decide) (by decide) (by decide) (by decide) (by decide) (by decide)
    (by decide) (by decide) (by decide) (by decide) (by decide) (by decide)
    (by decide) (by decide) (by decide)
